import Mathlib

/-!
Verification development for the HubSpot dedup / enrichment scripts
(`src/scripts/hubspot/dedup.py`, `src/scripts/hubspot/enrich.py`).

Strings are modelled as Lean `String` / `List Char`; Python `str` methods
(`lower`, `strip`, `split`, `rstrip`) and the two regex substitutions of
`normalize_name` are embedded as executable functions on `List Char`.
Characters are treated at the ASCII level (all data relevant to the
claims is ASCII): `str.lower` maps only the letters A-Z, `\s` is ASCII
whitespace, and `\w` is ASCII alphanumeric or underscore.
-/

/-! ## Definitions (shallow embedding of the source) -/

/-- ASCII model of the whitespace class used by `str.strip`, `str.split`
and the regex class `\s`. -/
def isPySpace (c : Char) : Bool :=
  c = ' ' || c = '\t' || c = '\n' || c = '\r' || c = '\x0b' || c = '\x0c'

/-- The regex character class `[,\s]` of the suffix-stripping pattern. -/
def isSep (c : Char) : Bool :=
  c = ',' || isPySpace c

/-- ASCII model of the regex word-character class `\w`, deciding the `\b`
word boundaries of the suffix-stripping pattern. -/
def isWordChar (c : Char) : Bool :=
  c.isAlpha || c.isDigit || c = '_'

/-- ASCII model of `str.lower`: map A-Z to a-z, leave everything else. -/
def toLowerChar (c : Char) : Char :=
  if 65 ≤ c.toNat ∧ c.toNat ≤ 90 then Char.ofNat (c.toNat + 32) else c

/-- Embeds `str.strip()` (ASCII whitespace on both ends). -/
def stripChars (l : List Char) : List Char :=
  ((l.dropWhile isPySpace).reverse.dropWhile isPySpace).reverse

/-- Embeds `str.rstrip('/')`. -/
def rstripSlash (l : List Char) : List Char :=
  (l.reverse.dropWhile (fun c => c = '/')).reverse

/-- Embeds `str.split('?')[0]`: the part of the string before the first `?`. -/
def takeUntilQ (l : List Char) : List Char :=
  l.takeWhile (fun c => c ≠ '?')

/-- Helper of `parenSub`: drop everything up to and including the first `)`. -/
def dropAfterRParen : List Char → List Char
  | [] => []
  | c :: rest => if c = ')' then rest else dropAfterRParen rest

/-- Fuel-indexed form of `parenSub` (structural, so the kernel can
evaluate it); `parenSub` supplies sufficient fuel. -/
def parenSubF : Nat → List Char → List Char
  | 0, l => l
  | _ + 1, [] => []
  | fuel + 1, c :: rest =>
    if c = '(' ∧ ')' ∈ rest then parenSubF fuel (dropAfterRParen rest)
    else c :: parenSubF fuel rest

/-- Embeds `re.sub(r'\([^)]*\)', '', s)`: delete each leftmost `(` together with
the text up to the first following `)`; a `(` with no later `)` is kept. -/
def parenSub (l : List Char) : List Char := parenSubF l.length l

/-- Embeds `re.sub(r'[®™]', '', s)`: delete trademark glyphs. -/
def tmSub (l : List Char) : List Char :=
  l.filter (fun c => ¬(c = '®' ∨ c = '™'))

/-- The alternation of the professional-suffix regex of
`dedup.py:normalize_name`, in source order (the regex engine tries the
alternatives left to right). -/
def SUFFIX_TOKENS : List (List Char) :=
  [['m','b','a'], ['p','h','d'], ['m','d'], ['r','n'], ['b','s','n'],
   ['c','p','t','c'], ['l','s','s','b','b'], ['m','h','a'],
   ['f','a','c','h','e'], ['p','m','p'], ['c','m','r','p'],
   ['c','t','b','s'], ['d','l','m'], ['a','s','c','p'], ['c','m'],
   ['m','s'], ['c','l','s'], ['m','t'], ['m','l','s'], ['s','b','b'],
   ['r','r','t'], ['l','s','s','g','b'], ['b','s'], ['j','r'], ['s','r'],
   ['i','i','i'], ['i','i'], ['d','o'], ['m','a'], ['m','p','a'],
   ['m','s','s','c','m'], ['c','s','c','p'], ['c','p','m'], ['c','s','p'],
   ['c','p','i','m'], ['l','c','s','w'], ['c','l','t','d'],
   ['c','i','i','s','c','m'], ['m','s','y','l'], ['g','m','s','-','t'],
   ['c','r','p'], ['c','f','t','c','o']]

/-- The trailing `\b` of the suffix pattern: the position after the token
must be the end of the string or a non-word character. -/
def boundaryOk : List Char → Bool
  | [] => true
  | c :: _ => ¬ isWordChar c

/-- Try the alternation at the start of `l` (each token's match must be
followed by a word boundary); the engine takes the first alternative that
fits.  The subject is already lowercased, so `re.IGNORECASE` is inert and
the comparison is literal. -/
def findTok (l : List Char) : Option (List Char) :=
  SUFFIX_TOKENS.find? (fun tok => tok.isPrefixOf l && boundaryOk (l.drop tok.length))

/-- The argument on which the suffix scan resumes after a successful
match at a separator run: past the greedy `[,\s]+` run, the matched
token, and the greedy trailing `[,\s]*` run. -/
def afterMatch (l : List Char) (tok : List Char) : List Char :=
  ((l.dropWhile isSep).drop tok.length).dropWhile isSep

/-- Fuel-indexed form of `suffixSub` (structural, kernel-evaluable). -/
def suffixSubF : Nat → List Char → List Char
  | 0, l => l
  | _ + 1, [] => []
  | fuel + 1, c :: rest =>
    if isSep c then
      match findTok ((c :: rest).dropWhile isSep) with
      | some tok => ' ' :: suffixSubF fuel (afterMatch (c :: rest) tok)
      | none => c :: suffixSubF fuel rest
    else c :: suffixSubF fuel rest

/-- Embeds `re.sub(r'[,\s]+\b(mba|...)\b[,\s]*', ' ', s)`: global leftmost scan.
At a separator character the engine greedily takes the whole `[,\s]+` run
(a shorter run would put another separator, never a token letter, next);
if an alternative then matches with a trailing word boundary, the match
extends over the greedy trailing `[,\s]*` run and is replaced by a single
space, and scanning resumes after the match; otherwise the scan advances
one position. -/
def suffixSub (l : List Char) : List Char := suffixSubF l.length l

/-- Fuel-indexed form of `pySplit` (structural, kernel-evaluable). -/
def pySplitF : Nat → List Char → List (List Char)
  | 0, _ => []
  | _ + 1, [] => []
  | fuel + 1, c :: rest =>
    if isPySpace c then pySplitF fuel rest
    else ((c :: rest).takeWhile (fun d => !isPySpace d)) ::
         pySplitF fuel ((c :: rest).dropWhile (fun d => !isPySpace d))

/-- Embeds `str.split()`: split on runs of whitespace, no empty words. -/
def pySplit (l : List Char) : List (List Char) := pySplitF l.length l

/-- Embeds `' '.join(words)`. -/
def joinSpace : List (List Char) → List Char
  | [] => []
  | [w] => w
  | w :: ws => w ++ ' ' :: joinSpace ws

/-- Embeds `dedup.py:normalize_name` on an actual string: lowercase and strip,
remove parentheticals, remove trademark glyphs, strip the professional
suffix tokens at word boundaries, collapse whitespace. -/
def normalize_name (s : String) : String :=
  ⟨stripChars (joinSpace (pySplit (suffixSub (tmSub (parenSub
    (stripChars (s.data.map toLowerChar)))))))⟩

inductive PyErr where
  | attributeError
deriving DecidableEq, Repr

/-- Embeds `dedup.py:normalize_name` at the Python call boundary: the argument
may be `None` (modelled as `none`), and the body's first operation
`name.lower()` raises `AttributeError` on `None`; on a string the body is
total. -/
def normalize_name_py : Option String → Except PyErr String
  | none => .error .attributeError
  | some s => .ok (normalize_name s)

/-- Embeds `dedup.py:normalize_url`: `(url or '').strip().lower().rstrip('/')`,
then `split('?')[0].rstrip('/')`.  `None` is coalesced to the empty
string by `url or ''`. -/
def normalize_url (u : Option String) : String :=
  ⟨rstripSlash (takeUntilQ (rstripSlash ((stripChars (u.getD "").data).map toLowerChar)))⟩

/-- A HubSpot contact as the scripts see it: an id and a string-valued
property dictionary (`c['id']`, `c.get('properties', {})`).  Ids are
modelled as naturals (the scripts use them as dict keys and compare them
via `int(c['id'])`). -/
structure Contact where
  id : Nat
  properties : List (String × String)
deriving DecidableEq, Repr

/-- Python `dict` lookup on an association list (first matching key). -/
def alookup {κ β : Type} [DecidableEq κ] (k : κ) : List (κ × β) → Option β
  | [] => none
  | (k', v) :: rest => if k' = k then some v else alookup k rest

/-- Embeds `p.get(f)`. -/
def pget (c : Contact) (f : String) : Option String := alookup f c.properties

/-- Embeds `(p.get(f) or '')`. -/
def pgetD (c : Contact) (f : String) : String := (pget c f).getD ""

/-- Embeds `str.strip()` on a `String`. -/
def pystrip (s : String) : String := ⟨stripChars s.data⟩

/-- Embeds `dedup.py:FIELDS`: the tracked properties. -/
def FIELDS : List String :=
  ["email", "jobtitle", "company", "industry", "city", "state", "country",
   "hs_linkedin_url", "phone", "website",
   "linkedin_headline", "school_name", "school_degree",
   "previous_company_name", "previous_company_position", "job_location",
   "linkedin_company_slug"]

/-- Truthiness of `(p.get(f) or '').strip()`. -/
def filledAt (c : Contact) (f : String) : Bool := pystrip (pgetD c f) ≠ ""

/-- Embeds `dedup.py:score`: `(has_email, has_linkedin, filled)`. -/
def score (c : Contact) : Nat × Nat × Nat :=
  (if filledAt c "email" then 1 else 0,
   if filledAt c "hs_linkedin_url" then 1 else 0,
   (FIELDS.filter (fun f => filledAt c f)).length)

/-- The normalized full name of a contact as `find_duplicates` builds it:
`f'{fn} {ln}'.strip()` from the stripped name parts. -/
def fullName (c : Contact) : String :=
  pystrip (pystrip (pgetD c "firstname") ++ " " ++ pystrip (pgetD c "lastname"))

def nameKey (c : Contact) : String := normalize_name (fullName c)

def urlKey (c : Contact) : String := normalize_url (pget c "hs_linkedin_url")

/-- Embeds `if norm and len(norm) > 2`: very short name keys are skipped. -/
def nameKeyValid (c : Contact) : Bool := nameKey c ≠ "" && (nameKey c).length > 2

/-- Embeds `if url`: empty URL keys are skipped. -/
def urlKeyValid (c : Contact) : Bool := urlKey c ≠ ""

/-- Embeds `dict.setdefault(k, []).append(x)`: append to the group of `k`,
creating it at the end of the dict if absent. -/
def upsert {κ β : Type} [DecidableEq κ] : List (κ × List β) → κ → β → List (κ × List β)
  | [], k, x => [(k, [x])]
  | (k', g) :: rest, k, x =>
    if k' = k then (k', g ++ [x]) :: rest else (k', g) :: upsert rest k x

/-- The key-indexing pass shared by the `by_name` and `by_url` loops of
`find_duplicates`: group the contacts with a valid key under their key
(dict key-insertion order, appends within a group). -/
def keyIndex (key : Contact → String) (valid : Contact → Bool)
    (contacts : List Contact) : List (String × List Contact) :=
  contacts.foldl (fun m c => if valid c then upsert m (key c) c else m) []

/-- The `by_name` index of `find_duplicates` (key-insertion order). -/
def by_name (contacts : List Contact) : List (String × List Contact) :=
  keyIndex nameKey nameKeyValid contacts

/-- The `by_url` index of `find_duplicates`. -/
def by_url (contacts : List Contact) : List (String × List Contact) :=
  keyIndex urlKey urlKeyValid contacts

/-- The mutable grouping state of `find_duplicates`: the
`contact_to_group` dict (insertion-ordered) and `group_counter`. -/
structure UFState where
  ctg : List (Nat × Nat)
  counter : Nat
deriving DecidableEq, Repr

/-- Embeds `get_group(cid)`: look the contact up, assigning a fresh group id if
it has none yet. -/
def get_group (s : UFState) (cid : Nat) : Nat × UFState :=
  match alookup cid s.ctg with
  | some g => (g, s)
  | none => (s.counter, ⟨s.ctg ++ [(cid, s.counter)], s.counter + 1⟩)

/-- Embeds `[get_group(cid) for cid in cids]` with its state threading
(left-to-right evaluation). -/
def getGroups (s : UFState) : List Nat → List Nat × UFState
  | [] => ([], s)
  | cid :: rest =>
    let r := get_group s cid
    let r2 := getGroups r.2 rest
    (r.1 :: r2.1, r2.2)

/-- Python `min` on a nonempty list. -/
def listMin : List Nat → Nat
  | [] => 0
  | g :: gs => gs.foldl Nat.min g

/-- Python `dict` assignment `m[k] = v`: update in place, appending the
key if absent. -/
def setVal {κ β : Type} [DecidableEq κ] : List (κ × β) → κ → β → List (κ × β)
  | [], k, v => [(k, v)]
  | (k', v') :: rest, k, v =>
    if k' = k then (k', v) :: rest else (k', v') :: setVal rest k v

/-- Embeds `for cid in cids: contact_to_group[cid] = target`. -/
def assignAll (m : List (Nat × Nat)) (cids : List Nat) (t : Nat) : List (Nat × Nat) :=
  cids.foldl (fun m cid => setVal m cid t) m

/-- Embeds `merge_groups(cids)`: collect the group ids of `cids`, remap every
contact sitting in any of those groups to the minimum id, then assign
all of `cids` to it. -/
def merge_groups (s : UFState) (cids : List Nat) : UFState :=
  if cids.length ≤ 1 then s
  else
    let r := getGroups s cids
    let target := listMin r.1
    let remapped := r.2.ctg.map (fun kv => if kv.2 ∈ r.1 then (kv.1, target) else kv)
    ⟨assignAll remapped cids target, r.2.counter⟩

/-- The merge loops of `find_duplicates`: call `merge_groups` on every
key group with at least two members. -/
def runMerges (s : UFState) (gs : List (String × List Contact)) : UFState :=
  gs.foldl (fun s kg => if kg.2.length > 1 then merge_groups s (kg.2.map Contact.id) else s) s

/-- Embeds `{c['id']: c for c in contacts}` (later entries overwrite). -/
def contacts_by_id (contacts : List Contact) : List (Nat × Contact) :=
  contacts.foldl (fun m c => setVal m c.id c) []

def defaultContact : Contact := ⟨0, []⟩

/-- The final-group build of `find_duplicates`: walk `contact_to_group`
in insertion order and append each contact (via `contacts_by_id`) to its
group id's list. -/
def groupsOf (dict : List (Nat × Contact)) (ctg : List (Nat × Nat)) :
    List (Nat × List Contact) :=
  ctg.foldl (fun fg kv => upsert fg kv.2 ((alookup kv.1 dict).getD defaultContact)) []

/-- Embeds `dedup.py:find_duplicates`: group by name key and URL key, merge the
key groups transitively, and return the groups with at least two
members (as the `gid → members` dict, in insertion order). -/
def find_duplicates (contacts : List Contact) : List (Nat × List Contact) :=
  let s1 := runMerges ⟨[], 0⟩ (by_name contacts)
  let s2 := runMerges s1 (by_url contacts)
  (groupsOf (contacts_by_id contacts) s2.ctg).filter (fun g => g.2.length > 1)

/-- The sort key `(score(c), -int(c['id']))`. -/
def pykey (c : Contact) : (Nat × Nat × Nat) × Int := (score c, -(c.id : Int))

/-- Lexicographic order on the sort key. -/
def lexLe4 (a b : (Nat × Nat × Nat) × Int) : Prop :=
  a.1.1 < b.1.1 ∨ (a.1.1 = b.1.1 ∧
    (a.1.2.1 < b.1.2.1 ∨ (a.1.2.1 = b.1.2.1 ∧
      (a.1.2.2 < b.1.2.2 ∨ (a.1.2.2 = b.1.2.2 ∧ a.2 ≤ b.2)))))

instance (a b : (Nat × Nat × Nat) × Int) : Decidable (lexLe4 a b) := by
  unfold lexLe4; infer_instance

/-- Decides whether `a` sorts before `b` under `sort(key=..., reverse=True)`. -/
def keyGeB (a b : Contact) : Bool := decide (lexLe4 (pykey b) (pykey a))

/-- Stable insertion sort; with `keyGeB` it models Python's stable
descending `list.sort(key=..., reverse=True)`. -/
def insSorted {α : Type} (r : α → α → Bool) (a : α) : List α → List α
  | [] => [a]
  | b :: bs => if r a b then a :: b :: bs else b :: insSorted r a bs

def insertionSort {α : Type} (r : α → α → Bool) : List α → List α
  | [] => []
  | a :: as => insSorted r a (insertionSort r as)

/-- Embeds `group.sort(key=lambda c: (score(c), -int(c['id'])), reverse=True)`. -/
def sortGroup (group : List Contact) : List Contact := insertionSort keyGeB group

/-- Embeds `keeper = group[0]` after the sort. -/
def chooseKeeper (group : List Contact) : Contact := (sortGroup group).headD defaultContact

/-- The body of the inner `for f in FIELDS` loop of the `merge_updates`
computation: fill `f` from `dup` when the keeper's value is blank, the
duplicate's is not, and `f` was not filled before. -/
def mergeStepField (keeper dup : Contact) (m : List (String × String)) (f : String) :
    List (String × String) :=
  if !(filledAt keeper f) && filledAt dup f && (alookup f m).isNone
  then m ++ [(f, pystrip (pgetD dup f))] else m

/-- The body of the outer `for dup in to_delete` loop. -/
def mergeStepDup (keeper : Contact) (m : List (String × String)) (dup : Contact) :
    List (String × String) :=
  FIELDS.foldl (mergeStepField keeper dup) m

/-- The `merge_updates` computation of `process_duplicates`: fill empty
keeper fields from the duplicates, first non-empty value wins. -/
def computeMerge (keeper : Contact) (others : List Contact) : List (String × String) :=
  others.foldl (mergeStepDup keeper) []

/-- The write operations `process_duplicates` issues against the API. -/
inductive HsOp where
  | patch (cid : Nat) (props : List (String × String))
  | delete (cid : Nat)
deriving DecidableEq, Repr

/-- The operations issued for one duplicate group: sort, pick the keeper,
PATCH the merged fields into it when there are any (skipped in a dry
run), then DELETE each remaining duplicate (skipped in a dry run). -/
def processGroupOps (group : List Contact) (dry_run : Bool) : List HsOp :=
  let sorted := sortGroup group
  let keeper := sorted.headD defaultContact
  let to_delete := sorted.tail
  let merge_updates := computeMerge keeper to_delete
  (if merge_updates ≠ [] then
    (if dry_run then [] else [HsOp.patch keeper.id merge_updates])
   else [])
  ++ (if dry_run then [] else to_delete.map (fun d => HsOp.delete d.id))

/-- Embeds `sorted(dupes.items())`: ascending by group id (dict keys are
distinct, so the tuple comparison never reaches the second component). -/
def sortByGid (dupes : List (Nat × List Contact)) : List (Nat × List Contact) :=
  insertionSort (fun a b => decide (a.1 ≤ b.1)) dupes

/-- The full operation trace of `process_duplicates`, group after group. -/
def process_duplicates_ops (dupes : List (Nat × List Contact)) (dry_run : Bool) : List HsOp :=
  (sortByGid dupes).foldl (fun acc g => acc ++ processGroupOps g.2 dry_run) []

/-- Embeds `enrich.py:HUBSPOT_INDUSTRY_ENUMS` (complete list, source order). -/
def HUBSPOT_INDUSTRY_ENUMS : List String :=
  ["ACCOUNTING", "AIRLINES_AVIATION", "ALTERNATIVE_DISPUTE_RESOLUTION", "ALTERNATIVE_MEDICINE",
   "ANIMATION", "APPAREL_FASHION", "ARCHITECTURE_PLANNING", "ARTS_AND_CRAFTS", "AUTOMOTIVE",
   "AVIATION_AEROSPACE", "BANKING", "BIOTECHNOLOGY", "BROADCAST_MEDIA", "BUILDING_MATERIALS",
   "BUSINESS_SUPPLIES_AND_EQUIPMENT", "CAPITAL_MARKETS", "CHEMICALS", "CIVIC_SOCIAL_ORGANIZATION",
   "CIVIL_ENGINEERING", "COMMERCIAL_REAL_ESTATE", "COMPUTER_NETWORK_SECURITY", "COMPUTER_GAMES",
   "COMPUTER_HARDWARE", "COMPUTER_NETWORKING", "COMPUTER_SOFTWARE", "INTERNET", "CONSTRUCTION",
   "CONSUMER_ELECTRONICS", "CONSUMER_GOODS", "CONSUMER_SERVICES", "COSMETICS", "DAIRY",
   "DEFENSE_SPACE", "DESIGN", "EDUCATION_MANAGEMENT", "E_LEARNING",
   "ELECTRICAL_ELECTRONIC_MANUFACTURING", "ENTERTAINMENT", "ENVIRONMENTAL_SERVICES",
   "EVENTS_SERVICES", "EXECUTIVE_OFFICE", "FACILITIES_SERVICES", "FARMING", "FINANCIAL_SERVICES",
   "FINE_ART", "FISHERY", "FOOD_BEVERAGES", "FOOD_PRODUCTION", "FUND_RAISING", "FURNITURE",
   "GAMBLING_CASINOS", "GLASS_CERAMICS_CONCRETE", "GOVERNMENT_ADMINISTRATION",
   "GOVERNMENT_RELATIONS", "GRAPHIC_DESIGN", "HEALTH_WELLNESS_AND_FITNESS", "HIGHER_EDUCATION",
   "HOSPITAL_HEALTH_CARE", "HOSPITALITY", "HUMAN_RESOURCES", "IMPORT_AND_EXPORT",
   "INDIVIDUAL_FAMILY_SERVICES", "INDUSTRIAL_AUTOMATION", "INFORMATION_SERVICES",
   "INFORMATION_TECHNOLOGY_AND_SERVICES", "INSURANCE", "INTERNATIONAL_AFFAIRS",
   "INTERNATIONAL_TRADE_AND_DEVELOPMENT", "INVESTMENT_BANKING", "INVESTMENT_MANAGEMENT",
   "JUDICIARY", "LAW_ENFORCEMENT", "LAW_PRACTICE", "LEGAL_SERVICES", "LEGISLATIVE_OFFICE",
   "LEISURE_TRAVEL_TOURISM", "LIBRARIES", "LOGISTICS_AND_SUPPLY_CHAIN",
   "LUXURY_GOODS_JEWELRY", "MACHINERY", "MANAGEMENT_CONSULTING", "MARITIME", "MARKET_RESEARCH",
   "MARKETING_AND_ADVERTISING", "MECHANICAL_OR_INDUSTRIAL_ENGINEERING", "MEDIA_PRODUCTION",
   "MEDICAL_DEVICES", "MEDICAL_PRACTICE", "MENTAL_HEALTH_CARE", "MILITARY", "MINING_METALS",
   "MOTION_PICTURES_AND_FILM", "MUSEUMS_AND_INSTITUTIONS", "MUSIC", "NANOTECHNOLOGY",
   "NEWSPAPERS", "NON_PROFIT_ORGANIZATION_MANAGEMENT", "OIL_ENERGY", "ONLINE_MEDIA",
   "OUTSOURCING_OFFSHORING", "PACKAGE_FREIGHT_DELIVERY", "PACKAGING_AND_CONTAINERS",
   "PAPER_FOREST_PRODUCTS", "PERFORMING_ARTS", "PHARMACEUTICALS", "PHILANTHROPY", "PHOTOGRAPHY",
   "PLASTICS", "POLITICAL_ORGANIZATION", "PRIMARY_SECONDARY_EDUCATION", "PRINTING",
   "PROFESSIONAL_TRAINING_COACHING", "PROGRAM_DEVELOPMENT", "PUBLIC_POLICY",
   "PUBLIC_RELATIONS_AND_COMMUNICATIONS", "PUBLIC_SAFETY", "PUBLISHING", "RAILROAD_MANUFACTURE",
   "RANCHING", "REAL_ESTATE", "RECREATIONAL_FACILITIES_AND_SERVICES", "RELIGIOUS_INSTITUTIONS",
   "RENEWABLES_ENVIRONMENT", "RESEARCH", "RESTAURANTS", "RETAIL", "SECURITY_AND_INVESTIGATIONS",
   "SEMICONDUCTORS", "SHIPBUILDING", "SPORTING_GOODS", "SPORTS", "STAFFING_AND_RECRUITING",
   "SUPERMARKETS", "TELECOMMUNICATIONS", "TEXTILES", "THINK_TANKS", "TOBACCO",
   "TRANSLATION_AND_LOCALIZATION", "TRANSPORTATION_TRUCKING_RAILROAD", "UTILITIES",
   "VENTURE_CAPITAL_PRIVATE_EQUITY", "VETERINARY", "WAREHOUSING", "WHOLESALE",
   "WINE_AND_SPIRITS", "WIRELESS", "WRITING_AND_EDITING", "MOBILE_GAMES"]

/-- Embeds `enrich.py:map_industry` as a function of its argument and the
pre-resolved in-memory cache (the mutable default argument `_cache`,
made explicit as the spec's design notes direct). -/
def map_industry (raw_industry : String) (cache : List (String × String)) : String :=
  if raw_industry = "" then ""
  else if raw_industry ∈ HUBSPOT_INDUSTRY_ENUMS then raw_industry
  else
    match alookup raw_industry cache with
    | some v => v
    | none => ""

/-- The validation loop of `enrich.py:_ai_map_industries`: keep a
returned mapping only when its value is a real enum (the others are
skipped with a warning). -/
def validated_mapping (mapping : List (String × String)) : List (String × String) :=
  mapping.filter (fun kv => decide (kv.2 ∈ HUBSPOT_INDUSTRY_ENUMS))

/-- Embeds `enrich.py:_ai_map_industries` with the classifier response as an
oracle (the HTTP call itself is an external collaborator): empty batch
short-circuits, otherwise the parsed response is validated. -/
def ai_map_industries (classifier : List String → List (String × String))
    (raw_values : List String) : List (String × String) :=
  if raw_values = [] then [] else validated_mapping (classifier raw_values)

/-- Python `dict.update`. -/
def dictUpdate (m new : List (String × String)) : List (String × String) :=
  new.foldl (fun acc kv => setVal acc kv.1 kv.2) m

/-- Embeds `uncached[i:i+50] for i in range(0, len(uncached), 50)` (fuel-indexed
so the kernel can evaluate it). -/
def chunks50F : Nat → List String → List (List String)
  | 0, _ => []
  | fuel + 1, l => if l = [] then [] else l.take 50 :: chunks50F fuel (l.drop 50)

def chunks50 (l : List String) : List (List String) := chunks50F l.length l

/-- The cache content produced by `enrich.py:resolve_industry_cache`:
distinct unresolved raw values not already cached are classified in
batches of 50, each batch's validated results merged into the cache.
(Python iterates a `set` to build `uncached`; its order is one
linearization here — the claims do not depend on it.) -/
def resolve_industry_cache (cache : List (String × String))
    (classifier : List String → List (String × String))
    (raw_values : List String) : List (String × String) :=
  if raw_values = [] then cache
  else
    let unique := (raw_values.filter
      (fun v => v ≠ "" && !(decide (v ∈ HUBSPOT_INDUSTRY_ENUMS)))).dedup
    let uncached := unique.filter (fun v => (alookup v cache).isNone)
    (chunks50 uncached).foldl
      (fun c batch => dictUpdate c (ai_map_industries classifier batch)) cache

/-- Helper of `dropScheme`: the remainder after the first `://`, if any. -/
def findSchemeRest : List Char → Option (List Char)
  | [] => none
  | c :: rest =>
    if c = ':' ∧ ['/', '/'].isPrefixOf rest then some (rest.drop 2)
    else findSchemeRest rest

/-- Modelled from the spec: "strip scheme" (§3, Canonical URL Key) — drop
everything up to and including the first `://`, keeping the input when it
has no scheme separator. -/
def dropScheme (l : List Char) : List Char := (findSchemeRest l).getD l

/-- Modelled from the spec: the Canonical URL Key of §3 — "lowercase;
strip scheme; strip query string; strip trailing slash". -/
def spec_url_key (s : String) : String :=
  ⟨rstripSlash (takeUntilQ (dropScheme (s.data.map toLowerChar)))⟩

/-- What `normalize_url` actually computes, with the redundant pre-query
slash strip removed: strip whitespace, lowercase, cut at the first `?`,
strip trailing slashes.  No scheme stripping. -/
def amended_url_key (u : Option String) : String :=
  ⟨rstripSlash (takeUntilQ ((stripChars (u.getD "").data).map toLowerChar))⟩

/-- Embeds `tok` occurs as a contiguous substring of `l`. -/
def containsSeq (tok : List Char) : List Char → Bool
  | [] => tok.isEmpty
  | c :: rest => tok.isPrefixOf (c :: rest) || containsSeq tok rest

/-- No professional-suffix token occurs as a substring of `l`. -/
def tokenFree (l : List Char) : Bool :=
  SUFFIX_TOKENS.all (fun tok => !(containsSeq tok l))

/-! ## Theorems -/

theorem dropAfterRParen_length_le (l : List Char) :
    (dropAfterRParen l).length ≤ l.length := by
  induction l with
  | nil => simp [dropAfterRParen]
  | cons c rest ih =>
    simp only [dropAfterRParen]
    split
    · simp
    · exact Nat.le_trans ih (Nat.le_succ _)

theorem parenSubF_nil (f : Nat) : parenSubF f [] = [] := by
  cases f <;> rfl

theorem parenSubF_congr (f₁ : Nat) : ∀ (f₂ : Nat) (l : List Char),
    l.length ≤ f₁ → l.length ≤ f₂ → parenSubF f₁ l = parenSubF f₂ l := by
  induction f₁ with
  | zero =>
    intro f₂ l h1 _
    have : l = [] := List.eq_nil_of_length_eq_zero (Nat.le_zero.mp h1)
    subst this
    rw [parenSubF_nil, parenSubF_nil]
  | succ f ih =>
    intro f₂ l h1 h2
    cases l with
    | nil => rw [parenSubF_nil, parenSubF_nil]
    | cons c rest =>
      cases f₂ with
      | zero => simp at h2
      | succ f₂' =>
        simp only [parenSubF]
        simp only [List.length_cons, Nat.succ_le_succ_iff] at h1 h2
        split
        · exact ih f₂' _ (Nat.le_trans (dropAfterRParen_length_le rest) h1)
            (Nat.le_trans (dropAfterRParen_length_le rest) h2)
        · rw [ih f₂' rest h1 h2]

/-- The one-step unfolding of `parenSub` on a nonempty list. -/
theorem parenSub_cons (c : Char) (rest : List Char) :
    parenSub (c :: rest) =
      if c = '(' ∧ ')' ∈ rest then parenSub (dropAfterRParen rest)
      else c :: parenSub rest := by
  show parenSubF (rest.length + 1) (c :: rest) = _
  simp only [parenSubF]
  split
  · exact parenSubF_congr rest.length _ _ (dropAfterRParen_length_le rest)
      (Nat.le_refl _)
  · rfl

theorem parenSub_nil : parenSub [] = [] := rfl

theorem dropWhile_length_le {p : Char → Bool} (l : List Char) :
    (l.dropWhile p).length ≤ l.length :=
  (List.dropWhile_sublist _).length_le

theorem afterMatch_length_le (c : Char) (rest : List Char) (tok : List Char)
    (h : isSep c) : (afterMatch (c :: rest) tok).length ≤ rest.length := by
  unfold afterMatch
  have h1 : ((c :: rest).dropWhile isSep).length ≤ rest.length := by
    simp only [List.dropWhile_cons, h, if_true]
    exact dropWhile_length_le rest
  have h2 := dropWhile_length_le (p := isSep) (((c :: rest).dropWhile isSep).drop tok.length)
  have h3 : (((c :: rest).dropWhile isSep).drop tok.length).length ≤
      ((c :: rest).dropWhile isSep).length := by
    rw [List.length_drop]; omega
  omega

theorem suffixSubF_nil (f : Nat) : suffixSubF f [] = [] := by
  cases f <;> rfl

theorem suffixSubF_congr (f₁ : Nat) : ∀ (f₂ : Nat) (l : List Char),
    l.length ≤ f₁ → l.length ≤ f₂ → suffixSubF f₁ l = suffixSubF f₂ l := by
  induction f₁ with
  | zero =>
    intro f₂ l h1 _
    have : l = [] := List.eq_nil_of_length_eq_zero (Nat.le_zero.mp h1)
    subst this
    rw [suffixSubF_nil, suffixSubF_nil]
  | succ f ih =>
    intro f₂ l h1 h2
    cases l with
    | nil => rw [suffixSubF_nil, suffixSubF_nil]
    | cons c rest =>
      cases f₂ with
      | zero => simp at h2
      | succ f₂' =>
        simp only [suffixSubF]
        simp only [List.length_cons, Nat.succ_le_succ_iff] at h1 h2
        cases hc : isSep c with
        | true =>
          rw [if_pos rfl, if_pos rfl]
          cases hft : findTok ((c :: rest).dropWhile isSep) with
          | some tok =>
            show ' ' :: suffixSubF f (afterMatch (c :: rest) tok) =
              ' ' :: suffixSubF f₂' (afterMatch (c :: rest) tok)
            have hlen := afterMatch_length_le c rest tok hc
            rw [ih f₂' _ (Nat.le_trans hlen h1) (Nat.le_trans hlen h2)]
          | none =>
            show c :: suffixSubF f rest = c :: suffixSubF f₂' rest
            rw [ih f₂' rest h1 h2]
        | false =>
          rw [if_neg (by simp), if_neg (by simp)]
          rw [ih f₂' rest h1 h2]

/-- The one-step unfolding of `suffixSub` on a nonempty list. -/
theorem suffixSub_cons (c : Char) (rest : List Char) :
    suffixSub (c :: rest) =
      if isSep c then
        match findTok ((c :: rest).dropWhile isSep) with
        | some tok => ' ' :: suffixSub (afterMatch (c :: rest) tok)
        | none => c :: suffixSub rest
      else c :: suffixSub rest := by
  show suffixSubF (rest.length + 1) (c :: rest) = _
  simp only [suffixSubF]
  cases hc : isSep c with
  | true =>
    rw [if_pos rfl, if_pos rfl]
    cases hft : findTok ((c :: rest).dropWhile isSep) with
    | some tok =>
      show ' ' :: suffixSubF rest.length (afterMatch (c :: rest) tok) =
        ' ' :: suffixSub (afterMatch (c :: rest) tok)
      have hlen := afterMatch_length_le c rest tok hc
      rw [show suffixSub (afterMatch (c :: rest) tok) =
        suffixSubF (afterMatch (c :: rest) tok).length (afterMatch (c :: rest) tok) from rfl]
      rw [suffixSubF_congr rest.length _ _ hlen (Nat.le_refl _)]
    | none => rfl
  | false =>
    rw [if_neg (by simp), if_neg (by simp)]
    rfl

theorem suffixSub_nil : suffixSub [] = [] := rfl

theorem pySplitF_nil (f : Nat) : pySplitF f [] = [] := by
  cases f <;> rfl

theorem pySplitF_congr (f₁ : Nat) : ∀ (f₂ : Nat) (l : List Char),
    l.length ≤ f₁ → l.length ≤ f₂ → pySplitF f₁ l = pySplitF f₂ l := by
  induction f₁ with
  | zero =>
    intro f₂ l h1 _
    have : l = [] := List.eq_nil_of_length_eq_zero (Nat.le_zero.mp h1)
    subst this
    rw [pySplitF_nil, pySplitF_nil]
  | succ f ih =>
    intro f₂ l h1 h2
    cases l with
    | nil => rw [pySplitF_nil, pySplitF_nil]
    | cons c rest =>
      cases f₂ with
      | zero => simp at h2
      | succ f₂' =>
        simp only [pySplitF]
        simp only [List.length_cons, Nat.succ_le_succ_iff] at h1 h2
        cases hc : isPySpace c with
        | true =>
          rw [if_pos rfl, if_pos rfl]
          exact ih f₂' rest h1 h2
        | false =>
          rw [if_neg (by simp), if_neg (by simp)]
          have hlen : ((c :: rest).dropWhile (fun d => !isPySpace d)).length ≤ rest.length := by
            simp only [List.dropWhile_cons, hc, Bool.not_false, if_true]
            exact dropWhile_length_le rest
          rw [ih f₂' _ (Nat.le_trans hlen h1) (Nat.le_trans hlen h2)]

/-- The one-step unfolding of `pySplit` on a nonempty list. -/
theorem pySplit_cons (c : Char) (rest : List Char) :
    pySplit (c :: rest) =
      if isPySpace c then pySplit rest
      else ((c :: rest).takeWhile (fun d => !isPySpace d)) ::
           pySplit ((c :: rest).dropWhile (fun d => !isPySpace d)) := by
  show pySplitF (rest.length + 1) (c :: rest) = _
  simp only [pySplitF]
  cases hc : isPySpace c with
  | true =>
    rw [if_pos rfl, if_pos rfl]
    rfl
  | false =>
    rw [if_neg (by simp), if_neg (by simp)]
    have hlen : ((c :: rest).dropWhile (fun d => !isPySpace d)).length ≤ rest.length := by
      simp only [List.dropWhile_cons, hc, Bool.not_false, if_true]
      exact dropWhile_length_le rest
    rw [show pySplit ((c :: rest).dropWhile (fun d => !isPySpace d)) =
      pySplitF ((c :: rest).dropWhile (fun d => !isPySpace d)).length
        ((c :: rest).dropWhile (fun d => !isPySpace d)) from rfl]
    rw [pySplitF_congr rest.length _ _ hlen (Nat.le_refl _)]

theorem pySplit_nil : pySplit [] = [] := rfl

theorem takeWhile_eq_self_of {p : Char → Bool} :
    ∀ {l : List Char}, (∀ c ∈ l, p c = true) → l.takeWhile p = l := by
  intro l h
  induction l with
  | nil => rfl
  | cons c rest ih =>
    rw [List.takeWhile_cons, if_pos (h c (List.mem_cons_self c rest))]
    rw [ih (fun d hd => h d (List.mem_cons_of_mem c hd))]

theorem dropWhile_head_false {p : Char → Bool} :
    ∀ {l z : List Char} {c : Char}, l.dropWhile p = c :: z → p c = false := by
  intro l
  induction l with
  | nil => intro z c h; simp [List.dropWhile] at h
  | cons a rest ih =>
    intro z c h
    rw [List.dropWhile_cons] at h
    by_cases ha : p a
    · rw [if_pos ha] at h; exact ih h
    · rw [if_neg ha] at h
      cases h
      exact Bool.eq_false_iff.mpr ha

theorem takeWhile_append_stop {p : Char → Bool} {q : Char} (hq : p q = false) :
    ∀ {l₁ : List Char}, (∀ c ∈ l₁, p c = true) →
      ∀ (z : List Char), (l₁ ++ q :: z).takeWhile p = l₁ := by
  intro l₁ h
  induction l₁ with
  | nil => intro z; simp [List.takeWhile_cons, hq]
  | cons c rest ih =>
    intro z
    rw [List.cons_append, List.takeWhile_cons, if_pos (h c (List.mem_cons_self c rest))]
    rw [ih (fun d hd => h d (List.mem_cons_of_mem c hd)) z]

/-- Embeds `rstrip('/')` only touches the trailing run: a non-slash character
splits the problem. -/
theorem rstripSlash_append {x z : List Char} {q : Char} (hq : (q = '/') = False) :
    rstripSlash (x ++ q :: z) = x ++ q :: rstripSlash z := by
  unfold rstripSlash
  rw [List.reverse_append, List.reverse_cons, List.append_assoc, List.singleton_append]
  rw [List.dropWhile_append]
  by_cases he : (z.reverse.dropWhile (fun c => c = '/')).isEmpty
  · rw [if_pos he]
    rw [List.dropWhile_cons, if_neg (by simp [hq])]
    rw [List.isEmpty_iff] at he
    rw [he]
    simp
  · rw [if_neg he]
    rw [List.reverse_append, List.reverse_cons]
    simp

theorem mem_rstripSlash {c : Char} {l : List Char} (h : c ∈ rstripSlash l) : c ∈ l := by
  unfold rstripSlash at h
  rw [List.mem_reverse] at h
  have := (List.dropWhile_sublist (l := l.reverse) (p := fun c => c = '/')).subset h
  exact List.mem_reverse.mp this

theorem rstripSlash_idem (l : List Char) : rstripSlash (rstripSlash l) = rstripSlash l := by
  unfold rstripSlash
  rw [List.reverse_reverse, List.dropWhile_idempotent]

/-- The key fact behind the amended C7: stripping trailing slashes before
cutting at `?` is redundant. -/
theorem rstrip_take_rstrip (l : List Char) :
    rstripSlash (takeUntilQ (rstripSlash l)) = rstripSlash (takeUntilQ l) := by
  by_cases hq : '?' ∈ l
  · -- decompose l at the first '?'
    have hsplit := List.takeWhile_append_dropWhile (p := fun c => c ≠ '?') (l := l)
    have hdnn : l.dropWhile (fun c => c ≠ '?') ≠ [] := by
      intro hnil
      rw [hnil, List.append_nil] at hsplit
      have : '?' ∈ l.takeWhile (fun c => c ≠ '?') := by rw [hsplit]; exact hq
      have := List.mem_takeWhile_imp this
      simp at this
    obtain ⟨c, z, hdz⟩ := List.exists_cons_of_ne_nil hdnn
    have hceq : c = '?' := by
      have := dropWhile_head_false hdz
      simpa using this
    subst hceq
    obtain ⟨l₁, hmem₁, hldec⟩ :
        ∃ l₁, (∀ d ∈ l₁, decide (d ≠ '?') = true) ∧ l = l₁ ++ '?' :: z := by
      refine ⟨l.takeWhile (fun c => c ≠ '?'), ?_, ?_⟩
      · exact fun d hd => List.mem_takeWhile_imp (p := fun c => decide (c ≠ '?')) hd
      · rw [← hdz]
        exact hsplit.symm
    have htakel : takeUntilQ l = l₁ := by
      unfold takeUntilQ
      rw [hldec]
      exact takeWhile_append_stop (by decide) hmem₁ z
    have hw : rstripSlash l = l₁ ++ '?' :: rstripSlash z := by
      rw [hldec]
      exact rstripSlash_append (by decide)
    have htakers : takeUntilQ (rstripSlash l) = l₁ := by
      unfold takeUntilQ
      rw [hw]
      exact takeWhile_append_stop (by decide) hmem₁ (rstripSlash z)
    rw [htakers, htakel]
  · -- no query: both sides are rstripSlash l
    have htl : takeUntilQ l = l :=
      takeWhile_eq_self_of (fun c hc => by
        simp only [ne_eq, decide_eq_true_eq]
        intro heq; exact hq (heq ▸ hc))
    have htrs : takeUntilQ (rstripSlash l) = rstripSlash l :=
      takeWhile_eq_self_of (fun c hc => by
        simp only [ne_eq, decide_eq_true_eq]
        intro heq; exact hq (mem_rstripSlash (heq ▸ hc)))
    rw [htl, htrs, rstripSlash_idem]

/-- C7 (counterexample): `normalize_url` does not strip the scheme, so it
does not compute the spec's canonical URL key, and the same address
reached via http and via https yields two different keys. -/
theorem c7_counterexample :
    normalize_url (some "https://x/in/jsmith/") = "https://x/in/jsmith" ∧
    spec_url_key "https://x/in/jsmith/" = "x/in/jsmith" ∧
    normalize_url (some "https://x/in/jsmith/") ≠ spec_url_key "https://x/in/jsmith/" ∧
    normalize_url (some "http://x/in/jsmith") ≠ normalize_url (some "https://x/in/jsmith") := by
  decide

/-- C7 (amended): for every raw URL, `normalize_url` returns the input
(empty for `None`) whitespace-stripped, lowercased, cut at the first
`?`, and stripped of trailing slashes — the scheme is retained. -/
theorem c7_amended_url_key (u : Option String) :
    normalize_url u = amended_url_key u := by
  unfold normalize_url amended_url_key
  exact congrArg String.mk (rstrip_take_rstrip _)

/-- C8 (counterexample): `normalize_name` is not total on `None`: its
first operation `name.lower()` raises `AttributeError` instead of
returning the empty key. -/
theorem c8_counterexample :
    normalize_name_py none = Except.error PyErr.attributeError ∧
    normalize_name_py none ≠ Except.ok "" :=
  ⟨rfl, fun h => Except.noConfusion h⟩

/-- C8 (amended): `normalize_url` is total on `None` and the empty string
and returns the empty key for both; `normalize_name` returns the empty
key for the empty string but raises `AttributeError` on `None` (only
`normalize_url` has the `url or ''` guard). -/
theorem c8_amended_edge_cases :
    normalize_url none = "" ∧ normalize_url (some "") = "" ∧
    normalize_name_py (some "") = Except.ok "" ∧
    normalize_name_py none = Except.error PyErr.attributeError :=
  ⟨rfl, rfl, rfl, rfl⟩

/-- C9: `map_industry` as a function of its argument and the pre-resolved
cache: a valid enum member is returned unchanged whatever the cache
holds; otherwise a cached raw value returns its cached mapping; otherwise
the result is the empty string (so an unresolved value before batch
pre-resolution yields an empty result, not an exception). -/
theorem c9_map_industry_states (raw : String) (cache : List (String × String)) :
    (raw ∈ HUBSPOT_INDUSTRY_ENUMS → map_industry raw cache = raw) ∧
    (raw ∉ HUBSPOT_INDUSTRY_ENUMS → raw ≠ "" → ∀ v, alookup raw cache = some v →
      map_industry raw cache = v) ∧
    (raw ∉ HUBSPOT_INDUSTRY_ENUMS → alookup raw cache = none →
      map_industry raw cache = "") := by
  unfold map_industry
  refine ⟨?_, ?_, ?_⟩
  · intro h
    have hne : raw ≠ "" := by
      intro he
      subst he
      revert h
      decide
    rw [if_neg hne, if_pos h]
  · intro h hne v hv
    rw [if_neg hne, if_neg h, hv]
  · intro h hl
    by_cases hne : raw = ""
    · rw [if_pos hne]
    · rw [if_neg hne, if_neg h, hl]

/-- Witness for C9 at concrete inputs: an enum member passes through (the
cache, even a conflicting one, is not consulted), a cached value maps to
its cached enum, an unresolved value maps to the empty string. -/
theorem c9_map_industry_states_witness :
    map_industry "BANKING" [("BANKING", "RETAIL")] = "BANKING" ∧
    map_industry "Fintech" [("Fintech", "BANKING")] = "BANKING" ∧
    map_industry "Fintech" [] = "" :=
  ⟨(c9_map_industry_states "BANKING" [("BANKING", "RETAIL")]).1 (by decide),
   (c9_map_industry_states "Fintech" [("Fintech", "BANKING")]).2.1 (by decide)
     (by decide) "BANKING" rfl,
   (c9_map_industry_states "Fintech" []).2.2 (by decide) rfl⟩

theorem mem_setVal {κ β : Type} [DecidableEq κ] {k' : κ} {v' : β} :
    ∀ {m : List (κ × β)} {e : κ × β}, e ∈ setVal m k' v' → e ∈ m ∨ e = (k', v') := by
  intro m
  induction m with
  | nil =>
    intro e he
    simp only [setVal, List.mem_singleton] at he
    exact Or.inr he
  | cons a rest ih =>
    intro e he
    obtain ⟨k'', v''⟩ := a
    simp only [setVal] at he
    by_cases hk : k'' = k'
    · rw [if_pos hk] at he
      rcases List.mem_cons.mp he with h | h
      · subst hk
        exact Or.inr h
      · exact Or.inl (List.mem_cons_of_mem _ h)
    · rw [if_neg hk] at he
      rcases List.mem_cons.mp he with h | h
      · exact Or.inl (h ▸ List.mem_cons_self _ _)
      · rcases ih h with h' | h'
        · exact Or.inl (List.mem_cons_of_mem _ h')
        · exact Or.inr h'

theorem mem_dictUpdate :
    ∀ {new m : List (String × String)} {e : String × String},
      e ∈ dictUpdate m new → e ∈ m ∨ e ∈ new := by
  intro new
  induction new with
  | nil => intro m e he; exact Or.inl he
  | cons kv rest ih =>
    intro m e he
    have he' : e ∈ dictUpdate (setVal m kv.1 kv.2) rest := he
    rcases ih he' with h | h
    · rcases mem_setVal h with h' | h'
      · exact Or.inl h'
      · exact Or.inr (h' ▸ List.mem_cons_self _ _)
    · exact Or.inr (List.mem_cons_of_mem _ h)

theorem mem_ai_map_industries {classifier : List String → List (String × String)}
    {batch : List String} {e : String × String}
    (h : e ∈ ai_map_industries classifier batch) : e.2 ∈ HUBSPOT_INDUSTRY_ENUMS := by
  unfold ai_map_industries at h
  split at h
  · cases h
  · unfold validated_mapping at h
    have := List.of_mem_filter h
    exact of_decide_eq_true this

/-- C10: the validation loop keeps exactly the mappings whose value lies
in the HubSpot enum set (the rest of the batch is retained, mappings
outside the set are discarded), and consequently every entry
`resolve_industry_cache` adds to the persistent cache has a value in the
enum set. -/
theorem c10_validation_and_cache (mapping cache : List (String × String))
    (classifier : List String → List (String × String))
    (raw_values : List String) (k v : String) :
    ((k, v) ∈ validated_mapping mapping ↔
      (k, v) ∈ mapping ∧ v ∈ HUBSPOT_INDUSTRY_ENUMS) ∧
    ((k, v) ∈ resolve_industry_cache cache classifier raw_values →
      (k, v) ∈ cache ∨ v ∈ HUBSPOT_INDUSTRY_ENUMS) := by
  constructor
  · unfold validated_mapping
    rw [List.mem_filter]
    simp only [decide_eq_true_eq]
  · unfold resolve_industry_cache
    split
    · exact fun h => Or.inl h
    · have hgen : ∀ (batches : List (List String)) (c : List (String × String)),
          (∀ e ∈ c, e ∈ cache ∨ e.2 ∈ HUBSPOT_INDUSTRY_ENUMS) →
          ∀ e ∈ batches.foldl
            (fun c batch => dictUpdate c (ai_map_industries classifier batch)) c,
            e ∈ cache ∨ e.2 ∈ HUBSPOT_INDUSTRY_ENUMS := by
        intro batches
        induction batches with
        | nil => intro c hc e he; exact hc e he
        | cons b bs ih =>
          intro c hc e he
          refine ih (dictUpdate c (ai_map_industries classifier b)) ?_ e he
          intro e' he'
          rcases mem_dictUpdate he' with h | h
          · exact hc e' h
          · exact Or.inr (mem_ai_map_industries h)
      exact fun h => hgen _ cache (fun e he => Or.inl he) (k, v) h

/-- Witness for C10 at concrete inputs: a batch with one invalid enum
value keeps the valid mapping and discards the invalid one, and a cache
entry produced by resolution is enum-valued. -/
theorem c10_validation_and_cache_witness :
    (("a", "BANKING") ∈ validated_mapping [("a", "BANKING"), ("b", "NOPE")] ↔
      ("a", "BANKING") ∈ [("a", "BANKING"), ("b", "NOPE")] ∧
        "BANKING" ∈ HUBSPOT_INDUSTRY_ENUMS) ∧
    (("y", "BANKING") ∈ [("x", "RETAIL")] ∨ "BANKING" ∈ HUBSPOT_INDUSTRY_ENUMS) :=
  ⟨(c10_validation_and_cache [("a", "BANKING"), ("b", "NOPE")] [("x", "RETAIL")]
      (fun _ => [("y", "BANKING"), ("z", "BAD")]) ["y", "z"] "a" "BANKING").1,
   (c10_validation_and_cache [("a", "BANKING"), ("b", "NOPE")] [("x", "RETAIL")]
      (fun _ => [("y", "BANKING"), ("z", "BAD")]) ["y", "z"] "y" "BANKING").2 (by decide)⟩

theorem lexLe4_refl (a : (Nat × Nat × Nat) × Int) : lexLe4 a a := by
  unfold lexLe4; omega

theorem lexLe4_total (a b : (Nat × Nat × Nat) × Int) : lexLe4 a b ∨ lexLe4 b a := by
  unfold lexLe4; omega

theorem lexLe4_trans (a b c : (Nat × Nat × Nat) × Int)
    (h1 : lexLe4 a b) (h2 : lexLe4 b c) : lexLe4 a c := by
  unfold lexLe4 at h1 h2 ⊢; omega

theorem keyGeB_total (a b : Contact) : keyGeB a b = true ∨ keyGeB b a = true := by
  unfold keyGeB
  simp only [decide_eq_true_eq]
  exact lexLe4_total (pykey b) (pykey a)

theorem keyGeB_trans (a b c : Contact)
    (h1 : keyGeB a b = true) (h2 : keyGeB b c = true) : keyGeB a c = true := by
  unfold keyGeB at h1 h2 ⊢
  simp only [decide_eq_true_eq] at h1 h2 ⊢
  exact lexLe4_trans _ _ _ h2 h1

theorem mem_insSorted {α : Type} (r : α → α → Bool) (a x : α) :
    ∀ l : List α, x ∈ insSorted r a l ↔ x = a ∨ x ∈ l := by
  intro l
  induction l with
  | nil => simp [insSorted]
  | cons b bs ih =>
    simp only [insSorted]
    split
    · exact List.mem_cons
    · rw [List.mem_cons, ih, List.mem_cons]
      tauto

theorem mem_insertionSort {α : Type} (r : α → α → Bool) :
    ∀ (l : List α) (x : α), x ∈ insertionSort r l ↔ x ∈ l := by
  intro l
  induction l with
  | nil => intro x; simp [insertionSort]
  | cons a as ih =>
    intro x
    simp only [insertionSort]
    rw [mem_insSorted, ih, List.mem_cons]

theorem length_insSorted {α : Type} (r : α → α → Bool) (a : α) :
    ∀ l : List α, (insSorted r a l).length = l.length + 1 := by
  intro l
  induction l with
  | nil => rfl
  | cons b bs ih =>
    simp only [insSorted]
    split
    · simp
    · simp only [List.length_cons, ih]

theorem length_insertionSort {α : Type} (r : α → α → Bool) :
    ∀ l : List α, (insertionSort r l).length = l.length := by
  intro l
  induction l with
  | nil => rfl
  | cons a as ih =>
    simp only [insertionSort, length_insSorted, ih, List.length_cons]

theorem pairwise_insSorted {α : Type} {r : α → α → Bool}
    (htot : ∀ a b, r a b = true ∨ r b a = true)
    (htrans : ∀ a b c, r a b = true → r b c = true → r a c = true)
    (a : α) : ∀ {l : List α}, l.Pairwise (fun x y => r x y = true) →
      (insSorted r a l).Pairwise (fun x y => r x y = true) := by
  intro l
  induction l with
  | nil =>
    intro _
    exact List.pairwise_singleton _ _
  | cons b bs ih =>
    intro hp
    obtain ⟨hb, hbs⟩ := List.pairwise_cons.mp hp
    simp only [insSorted]
    split
    · next h =>
      refine List.pairwise_cons.mpr ⟨?_, hp⟩
      intro y hy
      rcases List.mem_cons.mp hy with rfl | hy'
      · exact h
      · exact htrans a b y h (hb y hy')
    · next h =>
      have hba : r b a = true := (htot a b).resolve_left h
      refine List.pairwise_cons.mpr ⟨?_, ih hbs⟩
      intro y hy
      rcases (mem_insSorted r a y bs).mp hy with rfl | hy'
      · exact hba
      · exact hb y hy'

theorem pairwise_insertionSort {α : Type} {r : α → α → Bool}
    (htot : ∀ a b, r a b = true ∨ r b a = true)
    (htrans : ∀ a b c, r a b = true → r b c = true → r a c = true) :
    ∀ l : List α, (insertionSort r l).Pairwise (fun x y => r x y = true) := by
  intro l
  induction l with
  | nil => exact List.Pairwise.nil
  | cons a as ih => exact pairwise_insSorted htot htrans a ih

theorem chooseKeeper_spec (group : List Contact) (h : group ≠ []) :
    chooseKeeper group ∈ group ∧
      ∀ c ∈ group, lexLe4 (pykey c) (pykey (chooseKeeper group)) := by
  have hlen : sortGroup group ≠ [] := by
    intro hn
    apply h
    have := length_insertionSort keyGeB group
    rw [show insertionSort keyGeB group = sortGroup group from rfl, hn] at this
    exact List.eq_nil_of_length_eq_zero this.symm
  obtain ⟨k, rest, hkrest⟩ := List.exists_cons_of_ne_nil hlen
  have hck : chooseKeeper group = k := by
    unfold chooseKeeper
    rw [hkrest]
    rfl
  have hpw := pairwise_insertionSort keyGeB_total keyGeB_trans group
  rw [show insertionSort keyGeB group = sortGroup group from rfl, hkrest] at hpw
  obtain ⟨hkrel, _⟩ := List.pairwise_cons.mp hpw
  constructor
  · rw [hck]
    have : k ∈ sortGroup group := by rw [hkrest]; exact List.mem_cons_self _ _
    exact (mem_insertionSort keyGeB group k).mp this
  · intro c hc
    rw [hck]
    have hcs : c ∈ sortGroup group := (mem_insertionSort keyGeB group c).mpr hc
    rw [hkrest] at hcs
    rcases List.mem_cons.mp hcs with rfl | hc'
    · exact lexLe4_refl _
    · have := hkrel c hc'
      unfold keyGeB at this
      exact of_decide_eq_true this

theorem lexLe4_pykey_tie {c k : Contact}
    (h : lexLe4 (pykey c) (pykey k)) (hs : score c = score k) : k.id ≤ c.id := by
  unfold lexLe4 pykey at h
  dsimp only at h
  rw [hs] at h
  omega

/-- C3 (amended): within a group the keeper is the record with the
lexicographically greatest `(score, -id)` key: its completeness-score
tuple is lexicographically maximal, and on a score tie the contact with
the numerically *smaller* id is chosen. -/
theorem c3_amended_keeper_choice (group : List Contact) (h : group ≠ []) :
    chooseKeeper group ∈ group ∧
    ∀ c ∈ group,
      lexLe4 (pykey c) (pykey (chooseKeeper group)) ∧
      (score c = score (chooseKeeper group) → c.id ≠ (chooseKeeper group).id →
        (chooseKeeper group).id < c.id) := by
  obtain ⟨hmem, hge⟩ := chooseKeeper_spec group h
  refine ⟨hmem, fun c hc => ⟨hge c hc, fun hs hne => ?_⟩⟩
  have := lexLe4_pykey_tie (hge c hc) hs
  omega

/-- C3 (counterexample): two contacts with identical (empty) properties
tie on the completeness score, and the keeper is the one with the
numerically smaller id — id 1, not the larger id 2 the claim names. -/
theorem c3_counterexample :
    score (⟨1, []⟩ : Contact) = score (⟨2, []⟩ : Contact) ∧
    chooseKeeper [⟨1, []⟩, ⟨2, []⟩] = ⟨1, []⟩ ∧
    (chooseKeeper [⟨1, []⟩, ⟨2, []⟩]).id ≠ 2 := by decide

/-- Witness for the amended C3 at a concrete two-contact group with equal
scores: the keeper is a member, its key dominates, and its id is the
smaller one. -/
theorem c3_amended_keeper_choice_witness :
    chooseKeeper [(⟨1, [("email", "a@b.c")]⟩ : Contact), ⟨2, [("email", "d@e.f")]⟩] ∈
      [(⟨1, [("email", "a@b.c")]⟩ : Contact), ⟨2, [("email", "d@e.f")]⟩] ∧
    lexLe4 (pykey ⟨2, [("email", "d@e.f")]⟩)
      (pykey (chooseKeeper [(⟨1, [("email", "a@b.c")]⟩ : Contact), ⟨2, [("email", "d@e.f")]⟩])) ∧
    (chooseKeeper [(⟨1, [("email", "a@b.c")]⟩ : Contact), ⟨2, [("email", "d@e.f")]⟩]).id < 2 :=
  ⟨(c3_amended_keeper_choice [⟨1, [("email", "a@b.c")]⟩, ⟨2, [("email", "d@e.f")]⟩]
      (by decide)).1,
   ((c3_amended_keeper_choice [⟨1, [("email", "a@b.c")]⟩, ⟨2, [("email", "d@e.f")]⟩]
      (by decide)).2 ⟨2, [("email", "d@e.f")]⟩ (by decide)).1,
   ((c3_amended_keeper_choice [⟨1, [("email", "a@b.c")]⟩, ⟨2, [("email", "d@e.f")]⟩]
      (by decide)).2 ⟨2, [("email", "d@e.f")]⟩ (by decide)).2 (by decide) (by decide)⟩

theorem alookup_append_single_some {κ β : Type} [DecidableEq κ] {k : κ} {w : β}
    (f : κ) (v : β) : ∀ {m : List (κ × β)}, alookup k m = some w →
      alookup k (m ++ [(f, v)]) = some w := by
  intro m
  induction m with
  | nil => intro h; cases h
  | cons a rest ih =>
    obtain ⟨k', w'⟩ := a
    intro h
    rw [List.cons_append]
    show (if k' = k then some w' else alookup k (rest ++ [(f, v)])) = some w
    rw [show alookup k ((k', w') :: rest) = if k' = k then some w' else alookup k rest
      from rfl] at h
    by_cases hk : k' = k
    · rw [if_pos hk]
      rw [if_pos hk] at h
      exact h
    · rw [if_neg hk]
      rw [if_neg hk] at h
      exact ih h

theorem alookup_append_single_none {κ β : Type} [DecidableEq κ] {k : κ}
    (f : κ) (v : β) : ∀ {m : List (κ × β)}, alookup k m = none →
      alookup k (m ++ [(f, v)]) = if f = k then some v else none := by
  intro m
  induction m with
  | nil => intro _; rfl
  | cons a rest ih =>
    obtain ⟨k', w'⟩ := a
    intro h
    rw [List.cons_append]
    show (if k' = k then some w' else alookup k (rest ++ [(f, v)])) = _
    rw [show alookup k ((k', w') :: rest) = if k' = k then some w' else alookup k rest
      from rfl] at h
    by_cases hk : k' = k
    · rw [if_pos hk] at h
      cases h
    · rw [if_neg hk] at h
      rw [if_neg hk]
      exact ih h

theorem alookup_mergeStepField_some {keeper dup : Contact} {m : List (String × String)}
    {f : String} {w : String} (g : String) (hm : alookup f m = some w) :
    alookup f (mergeStepField keeper dup m g) = some w := by
  unfold mergeStepField
  split
  · exact alookup_append_single_some g _ hm
  · exact hm

theorem alookup_fields_fold_some {keeper dup : Contact} {f w : String} :
    ∀ (fields : List String) {m : List (String × String)}, alookup f m = some w →
      alookup f (fields.foldl (mergeStepField keeper dup) m) = some w := by
  intro fields
  induction fields with
  | nil => intro m h; exact h
  | cons g rest ih =>
    intro m h
    rw [List.foldl_cons]
    exact ih (alookup_mergeStepField_some g h)

theorem alookup_fields_fold_none (keeper dup : Contact) :
    ∀ (fields : List String) {m : List (String × String)} {f : String},
      alookup f m = none →
      alookup f (fields.foldl (mergeStepField keeper dup) m) =
        if f ∈ fields ∧ filledAt keeper f = false ∧ filledAt dup f = true
        then some (pystrip (pgetD dup f)) else none := by
  intro fields
  induction fields with
  | nil =>
    intro m f hm
    rw [List.foldl_nil, hm, if_neg]
    rintro ⟨h, -⟩
    exact List.not_mem_nil f h
  | cons g rest ih =>
    intro m f hm
    rw [List.foldl_cons]
    by_cases hcond : (!(filledAt keeper g) && filledAt dup g && (alookup g m).isNone) = true
    · have hstep : mergeStepField keeper dup m g = m ++ [(g, pystrip (pgetD dup g))] := by
        unfold mergeStepField
        rw [if_pos hcond]
      simp only [Bool.and_eq_true, Bool.not_eq_true'] at hcond
      obtain ⟨⟨hKg, hDg⟩, -⟩ := hcond
      by_cases hfg : g = f
      · subst hfg
        have hsome : alookup g (mergeStepField keeper dup m g) = some (pystrip (pgetD dup g)) := by
          rw [hstep, alookup_append_single_none g _ hm, if_pos rfl]
        rw [alookup_fields_fold_some rest hsome]
        rw [if_pos ⟨List.mem_cons_self g rest, hKg, hDg⟩]
      · have hnone : alookup f (mergeStepField keeper dup m g) = none := by
          rw [hstep, alookup_append_single_none g _ hm, if_neg hfg]
        rw [ih hnone]
        have hne : ¬ f = g := fun h => hfg h.symm
        by_cases hc2 : f ∈ rest ∧ filledAt keeper f = false ∧ filledAt dup f = true
        · rw [if_pos hc2, if_pos ⟨List.mem_cons_of_mem g hc2.1, hc2.2⟩]
        · rw [if_neg hc2, if_neg]
          rintro ⟨hmem, hrest⟩
          rcases List.mem_cons.mp hmem with h | h
          · exact hne h
          · exact hc2 ⟨h, hrest⟩
    · have hstep : mergeStepField keeper dup m g = m := by
        unfold mergeStepField
        rw [if_neg hcond]
      rw [hstep, ih hm]
      simp only [Bool.and_eq_true, Bool.not_eq_true', Option.isNone_iff_eq_none,
        not_and] at hcond
      by_cases hfg : g = f
      · subst hfg
        by_cases hKD : filledAt keeper g = false ∧ filledAt dup g = true
        · exact absurd hm (hcond hKD)
        · rw [if_neg, if_neg]
          · rintro ⟨-, h2⟩
            exact hKD h2
          · rintro ⟨-, h2⟩
            exact hKD h2
      · have hne : ¬ f = g := fun h => hfg h.symm
        by_cases hc2 : f ∈ rest ∧ filledAt keeper f = false ∧ filledAt dup f = true
        · rw [if_pos hc2, if_pos ⟨List.mem_cons_of_mem g hc2.1, hc2.2⟩]
        · rw [if_neg hc2, if_neg]
          rintro ⟨hmem, hrest⟩
          rcases List.mem_cons.mp hmem with h | h
          · exact hne h
          · exact hc2 ⟨h, hrest⟩

theorem alookup_computeMerge_none (keeper : Contact) :
    ∀ (others : List Contact) {m : List (String × String)} {f : String},
      alookup f m = none →
      alookup f (others.foldl (mergeStepDup keeper) m) =
        if filledAt keeper f = false ∧ f ∈ FIELDS then
          (others.find? (fun d => filledAt d f)).map (fun d => pystrip (pgetD d f))
        else none := by
  intro others
  induction others with
  | nil =>
    intro m f hm
    rw [List.foldl_nil, hm, List.find?_nil]
    split <;> rfl
  | cons dup rest ih =>
    intro m f hm
    rw [List.foldl_cons]
    by_cases hK : filledAt keeper f = false
    · by_cases hF : f ∈ FIELDS
      · by_cases hD : filledAt dup f = true
        · have hsome : alookup f (mergeStepDup keeper m dup) = some (pystrip (pgetD dup f)) := by
            show alookup f (FIELDS.foldl (mergeStepField keeper dup) m) = _
            rw [alookup_fields_fold_none keeper dup FIELDS hm, if_pos ⟨hF, hK, hD⟩]
          have : ∀ (os : List Contact) {m' : List (String × String)} {w : String},
              alookup f m' = some w → alookup f (os.foldl (mergeStepDup keeper) m') = some w := by
            intro os
            induction os with
            | nil => intro m' w h; exact h
            | cons d ds ihs =>
              intro m' w h
              rw [List.foldl_cons]
              exact ihs (alookup_fields_fold_some FIELDS h)
          rw [this rest hsome,
            List.find?_cons_of_pos (p := fun d => filledAt d f) rest hD, if_pos ⟨hK, hF⟩]
          rfl
        · have hnone : alookup f (mergeStepDup keeper m dup) = none := by
            show alookup f (FIELDS.foldl (mergeStepField keeper dup) m) = _
            rw [alookup_fields_fold_none keeper dup FIELDS hm, if_neg]
            rintro ⟨-, -, h⟩
            exact hD h
          rw [ih hnone,
            List.find?_cons_of_neg (p := fun d => filledAt d f) rest hD]
      · have hnone : alookup f (mergeStepDup keeper m dup) = none := by
          show alookup f (FIELDS.foldl (mergeStepField keeper dup) m) = _
          rw [alookup_fields_fold_none keeper dup FIELDS hm, if_neg]
          rintro ⟨h, -⟩
          exact hF h
        rw [ih hnone, if_neg (by rintro ⟨-, h⟩; exact hF h),
          if_neg (by rintro ⟨-, h⟩; exact hF h)]
    · have hnone : alookup f (mergeStepDup keeper m dup) = none := by
        show alookup f (FIELDS.foldl (mergeStepField keeper dup) m) = _
        rw [alookup_fields_fold_none keeper dup FIELDS hm, if_neg]
        rintro ⟨-, h, -⟩
        exact hK h
      rw [ih hnone, if_neg (by rintro ⟨h, -⟩; exact hK h),
        if_neg (by rintro ⟨h, -⟩; exact hK h)]

/-- C4: the merge-update mapping binds exactly the tracked fields whose
keeper value is blank and that some other record fills, each to the
(stripped) value of the first such record in iteration order; it never
contains a field the keeper already fills, and it is empty when no field
needs filling. -/
theorem c4_field_merger (keeper : Contact) (others : List Contact) (f : String) :
    (alookup f (computeMerge keeper others) =
      if filledAt keeper f = false ∧ f ∈ FIELDS then
        (others.find? (fun d => filledAt d f)).map (fun d => pystrip (pgetD d f))
      else none) ∧
    (filledAt keeper f = true → alookup f (computeMerge keeper others) = none) ∧
    ((∀ g ∈ FIELDS, filledAt keeper g = true ∨ ∀ d ∈ others, filledAt d g = false) →
      computeMerge keeper others = []) := by
  have hchar : ∀ f' : String, alookup f' (computeMerge keeper others) =
      if filledAt keeper f' = false ∧ f' ∈ FIELDS then
        (others.find? (fun d => filledAt d f')).map (fun d => pystrip (pgetD d f'))
      else none := by
    intro f'
    unfold computeMerge
    exact alookup_computeMerge_none keeper others rfl
  refine ⟨hchar f, ?_, ?_⟩
  · intro hk
    rw [hchar f, if_neg]
    rintro ⟨h1, -⟩
    rw [hk] at h1
    exact Bool.noConfusion h1
  · intro hnone
    cases hcm : computeMerge keeper others with
    | nil => rfl
    | cons e rest' =>
      exfalso
      obtain ⟨f₀, v₀⟩ := e
      have hl : alookup f₀ (computeMerge keeper others) = some v₀ := by
        rw [hcm]
        show (if f₀ = f₀ then some v₀ else alookup f₀ rest') = some v₀
        rw [if_pos rfl]
      rw [hchar f₀] at hl
      by_cases hc : filledAt keeper f₀ = false ∧ f₀ ∈ FIELDS
      · rw [if_pos hc] at hl
        cases hfind : others.find? (fun d => filledAt d f₀) with
        | none => rw [hfind] at hl; cases hl
        | some d =>
          have hd_mem := List.mem_of_find?_eq_some hfind
          have hd_pred := List.find?_some hfind
          rcases hnone f₀ hc.2 with h | h
          · rw [hc.1] at h
            exact Bool.noConfusion h
          · rw [h d hd_mem] at hd_pred
            exact Bool.noConfusion hd_pred
      · rw [if_neg hc] at hl
        cases hl

/-- Witness for C4 at concrete inputs: a blank keeper field is filled
with the first duplicate's stripped value, and a group with nothing to
contribute produces the empty mapping. -/
theorem c4_field_merger_witness :
    alookup "jobtitle" (computeMerge ⟨1, [("email", "a@b.c"), ("company", "Acme")]⟩
      [⟨2, [("email", "d@e.f"), ("jobtitle", " CEO ")]⟩]) = some "CEO" ∧
    computeMerge ⟨1, [("email", "a@b.c")]⟩ [⟨2, [("email", "x@y.z")]⟩] = [] :=
  ⟨Eq.trans
    (c4_field_merger ⟨1, [("email", "a@b.c"), ("company", "Acme")]⟩
      [⟨2, [("email", "d@e.f"), ("jobtitle", " CEO ")]⟩] "jobtitle").1
    (by decide),
   (c4_field_merger ⟨1, [("email", "a@b.c")]⟩ [⟨2, [("email", "x@y.z")]⟩] "email").2.2
    (by decide)⟩

theorem foldl_ops_init (dry : Bool) :
    ∀ (l : List (Nat × List Contact)) (acc : List HsOp),
      l.foldl (fun acc g => acc ++ processGroupOps g.2 dry) acc =
        acc ++ l.foldl (fun acc g => acc ++ processGroupOps g.2 dry) [] := by
  intro l
  induction l with
  | nil => intro acc; simp
  | cons g gs ih =>
    intro acc
    rw [List.foldl_cons, List.foldl_cons, ih (acc ++ processGroupOps g.2 dry),
      ih (([] : List HsOp) ++ processGroupOps g.2 dry), List.nil_append,
      List.append_assoc]

theorem processGroupOps_split (group : List Contact)
    (hupd : computeMerge (chooseKeeper group) ((sortGroup group).tail) ≠ []) :
    processGroupOps group false =
      HsOp.patch (chooseKeeper group).id
        (computeMerge (chooseKeeper group) ((sortGroup group).tail)) ::
      ((sortGroup group).tail.map (fun d => HsOp.delete d.id)) := by
  show (if computeMerge (chooseKeeper group) ((sortGroup group).tail) ≠ [] then
      if false = true then [] else
        [HsOp.patch (chooseKeeper group).id
          (computeMerge (chooseKeeper group) ((sortGroup group).tail))]
    else []) ++
    (if false = true then [] else (sortGroup group).tail.map (fun d => HsOp.delete d.id)) = _
  rw [if_pos hupd, if_neg (by simp), if_neg (by simp)]
  rfl

/-- C5: in a non-dry run, for every processed duplicate group whose
merge-update mapping is non-empty, the PATCH of the keeper appears in the
operation trace strictly before every DELETE of that group's non-keeper
contacts. -/
theorem c5_merge_before_delete (dupes : List (Nat × List Contact)) (gid : Nat)
    (group : List Contact) (hmem : (gid, group) ∈ dupes)
    (hupd : computeMerge (chooseKeeper group) ((sortGroup group).tail) ≠ []) :
    ∃ pre post, process_duplicates_ops dupes false =
      pre ++ HsOp.patch (chooseKeeper group).id
        (computeMerge (chooseKeeper group) ((sortGroup group).tail)) :: post ∧
      ∀ d ∈ (sortGroup group).tail, HsOp.delete d.id ∈ post := by
  have hmem' : (gid, group) ∈ sortByGid dupes :=
    (mem_insertionSort _ dupes _).mpr hmem
  obtain ⟨l1, l2, hsplit⟩ := List.append_of_mem hmem'
  unfold process_duplicates_ops
  rw [hsplit, List.foldl_append, List.foldl_cons]
  rw [foldl_ops_init false l2]
  refine ⟨l1.foldl (fun acc g => acc ++ processGroupOps g.2 false) [],
    ((sortGroup group).tail.map (fun d => HsOp.delete d.id)) ++
      l2.foldl (fun acc g => acc ++ processGroupOps g.2 false) [], ?_, ?_⟩
  · rw [processGroupOps_split group hupd]
    rw [List.append_assoc, List.cons_append]
  · intro d hd
    exact List.mem_append_left _ (List.mem_map_of_mem _ hd)

/-- Witness for C5 at a concrete two-contact group whose keeper gains a
field: the PATCH precedes every DELETE in the emitted trace. -/
theorem c5_merge_before_delete_witness :
    ∃ pre post, process_duplicates_ops
        [(0, [(⟨1, [("email", "a@b.c"), ("company", "Acme")]⟩ : Contact),
              ⟨2, [("email", "d@e.f"), ("jobtitle", " CEO ")]⟩])] false =
      pre ++ HsOp.patch
        (chooseKeeper [(⟨1, [("email", "a@b.c"), ("company", "Acme")]⟩ : Contact),
          ⟨2, [("email", "d@e.f"), ("jobtitle", " CEO ")]⟩]).id
        (computeMerge
          (chooseKeeper [(⟨1, [("email", "a@b.c"), ("company", "Acme")]⟩ : Contact),
            ⟨2, [("email", "d@e.f"), ("jobtitle", " CEO ")]⟩])
          ((sortGroup [(⟨1, [("email", "a@b.c"), ("company", "Acme")]⟩ : Contact),
            ⟨2, [("email", "d@e.f"), ("jobtitle", " CEO ")]⟩]).tail)) :: post ∧
      ∀ d ∈ (sortGroup [(⟨1, [("email", "a@b.c"), ("company", "Acme")]⟩ : Contact),
          ⟨2, [("email", "d@e.f"), ("jobtitle", " CEO ")]⟩]).tail,
        HsOp.delete d.id ∈ post :=
  c5_merge_before_delete
    [(0, [⟨1, [("email", "a@b.c"), ("company", "Acme")]⟩,
          ⟨2, [("email", "d@e.f"), ("jobtitle", " CEO ")]⟩])] 0
    [⟨1, [("email", "a@b.c"), ("company", "Acme")]⟩,
     ⟨2, [("email", "d@e.f"), ("jobtitle", " CEO ")]⟩]
    (by decide) (by decide)

theorem alookup_mem {κ β : Type} [DecidableEq κ] {k : κ} {v : β} :
    ∀ {m : List (κ × β)}, alookup k m = some v → (k, v) ∈ m := by
  intro m
  induction m with
  | nil => intro h; cases h
  | cons a rest ih =>
    obtain ⟨k', w⟩ := a
    intro h
    show (k, v) ∈ (k', w) :: rest
    by_cases hk : k' = k
    · rw [show alookup k ((k', w) :: rest) = some w from by
        show (if k' = k then some w else alookup k rest) = some w
        rw [if_pos hk]] at h
      cases h
      subst hk
      exact List.mem_cons_self _ _
    · rw [show alookup k ((k', w) :: rest) = alookup k rest from by
        show (if k' = k then some w else alookup k rest) = _
        rw [if_neg hk]] at h
      exact List.mem_cons_of_mem _ (ih h)

theorem alookup_append_some {κ β : Type} [DecidableEq κ] {k : κ} {v : β}
    (m' : List (κ × β)) :
    ∀ {m : List (κ × β)}, alookup k m = some v → alookup k (m ++ m') = some v := by
  intro m
  induction m with
  | nil => intro h; cases h
  | cons a rest ih =>
    obtain ⟨k', w⟩ := a
    intro h
    rw [List.cons_append]
    show (if k' = k then some w else alookup k (rest ++ m')) = some v
    rw [show alookup k ((k', w) :: rest) = if k' = k then some w else alookup k rest
      from rfl] at h
    by_cases hk : k' = k
    · rw [if_pos hk] at h ⊢
      exact h
    · rw [if_neg hk] at h ⊢
      exact ih h

theorem alookup_append_none {κ β : Type} [DecidableEq κ] {k : κ}
    (m' : List (κ × β)) :
    ∀ {m : List (κ × β)}, alookup k m = none → alookup k (m ++ m') = alookup k m' := by
  intro m
  induction m with
  | nil => intro _; rfl
  | cons a rest ih =>
    obtain ⟨k', w⟩ := a
    intro h
    rw [List.cons_append]
    show (if k' = k then some w else alookup k (rest ++ m')) = _
    rw [show alookup k ((k', w) :: rest) = if k' = k then some w else alookup k rest
      from rfl] at h
    by_cases hk : k' = k
    · rw [if_pos hk] at h
      cases h
    · rw [if_neg hk] at h
      rw [if_neg hk]
      exact ih h

theorem get_group_pres {s : UFState} {x : Nat} {v : Nat} (cid : Nat)
    (h : alookup x s.ctg = some v) :
    alookup x (get_group s cid).2.ctg = some v := by
  unfold get_group
  cases hc : alookup cid s.ctg with
  | some g => exact h
  | none => exact alookup_append_some _ h

theorem get_group_self (s : UFState) (cid : Nat) :
    alookup cid (get_group s cid).2.ctg = some (get_group s cid).1 := by
  unfold get_group
  cases hc : alookup cid s.ctg with
  | some g => exact hc
  | none =>
    show alookup cid (s.ctg ++ [(cid, s.counter)]) = some s.counter
    rw [alookup_append_none _ hc]
    show (if cid = cid then some s.counter else none) = some s.counter
    rw [if_pos rfl]

theorem getGroups_pres {x v : Nat} :
    ∀ (cids : List Nat) (s : UFState), alookup x s.ctg = some v →
      alookup x (getGroups s cids).2.ctg = some v := by
  intro cids
  induction cids with
  | nil => intro s h; exact h
  | cons c cs ih =>
    intro s h
    exact ih _ (get_group_pres c h)

theorem getGroups_covers {x : Nat} :
    ∀ (cids : List Nat) (s : UFState), x ∈ cids →
      ∃ g ∈ (getGroups s cids).1, alookup x (getGroups s cids).2.ctg = some g := by
  intro cids
  induction cids with
  | nil => intro s h; cases h
  | cons c cs ih =>
    intro s hmem
    rcases List.mem_cons.mp hmem with rfl | hx
    · refine ⟨(get_group s x).1, List.mem_cons_self _ _, ?_⟩
      exact getGroups_pres cs _ (get_group_self s x)
    · obtain ⟨g, hg, hlook⟩ := ih (get_group s c).2 hx
      exact ⟨g, List.mem_cons_of_mem _ hg, hlook⟩

theorem alookup_setVal_self {κ β : Type} [DecidableEq κ] {k : κ} {v : β} :
    ∀ m : List (κ × β), alookup k (setVal m k v) = some v := by
  intro m
  induction m with
  | nil =>
    show (if k = k then some v else none) = some v
    rw [if_pos rfl]
  | cons a rest ih =>
    obtain ⟨k', w⟩ := a
    show alookup k (if k' = k then (k', v) :: rest else (k', w) :: setVal rest k v) = some v
    by_cases hk : k' = k
    · rw [if_pos hk]
      show (if k' = k then some v else alookup k rest) = some v
      rw [if_pos hk]
    · rw [if_neg hk]
      show (if k' = k then some w else alookup k (setVal rest k v)) = some v
      rw [if_neg hk]
      exact ih

theorem alookup_setVal_other {κ β : Type} [DecidableEq κ] {k k' : κ} {v : β}
    (hne : k' ≠ k) :
    ∀ m : List (κ × β), alookup k' (setVal m k v) = alookup k' m := by
  intro m
  induction m with
  | nil =>
    show (if k = k' then some v else none) = none
    rw [if_neg (fun h => hne h.symm)]
  | cons a rest ih =>
    obtain ⟨k'', w⟩ := a
    show alookup k' (if k'' = k then (k'', v) :: rest else (k'', w) :: setVal rest k v) = _
    by_cases hk : k'' = k
    · rw [if_pos hk]
      have hne2 : ¬ k'' = k' := fun h => hne (by rw [← h, hk])
      show (if k'' = k' then some v else alookup k' rest) = _
      rw [if_neg hne2]
      show _ = if k'' = k' then some w else alookup k' rest
      rw [if_neg hne2]
    · rw [if_neg hk]
      show (if k'' = k' then some w else alookup k' (setVal rest k v)) = _
      by_cases hk2 : k'' = k'
      · rw [if_pos hk2]
        show _ = if k'' = k' then some w else alookup k' rest
        rw [if_pos hk2]
      · rw [if_neg hk2]
        show _ = if k'' = k' then some w else alookup k' rest
        rw [if_neg hk2]
        exact ih

theorem alookup_assignAll_other {x t : Nat} :
    ∀ (cids : List Nat) (m : List (Nat × Nat)), x ∉ cids →
      alookup x (assignAll m cids t) = alookup x m := by
  intro cids
  induction cids with
  | nil => intro m _; rfl
  | cons c cs ih =>
    intro m hx
    have hxc : c ≠ x := fun h => hx (h ▸ List.mem_cons_self c cs)
    have hxcs : x ∉ cs := fun h => hx (List.mem_cons_of_mem c h)
    show alookup x (assignAll (setVal m c t) cs t) = _
    rw [ih _ hxcs, alookup_setVal_other (fun h => hxc h.symm)]

theorem alookup_assignAll_mem {x t : Nat} :
    ∀ (cids : List Nat) (m : List (Nat × Nat)), x ∈ cids →
      alookup x (assignAll m cids t) = some t := by
  intro cids
  induction cids with
  | nil => intro m h; cases h
  | cons c cs ih =>
    intro m hx
    show alookup x (assignAll (setVal m c t) cs t) = some t
    by_cases hxs : x ∈ cs
    · exact ih _ hxs
    · rcases List.mem_cons.mp hx with rfl | h
      · rw [alookup_assignAll_other cs _ hxs]
        exact alookup_setVal_self _
      · exact absurd h hxs

theorem alookup_map_remap (groups : List Nat) (target : Nat) (x : Nat) :
    ∀ m : List (Nat × Nat),
      alookup x (m.map (fun kv => if kv.2 ∈ groups then (kv.1, target) else kv)) =
        (alookup x m).map (fun g => if g ∈ groups then target else g) := by
  intro m
  induction m with
  | nil => rfl
  | cons a rest ih =>
    obtain ⟨k, v⟩ := a
    rw [List.map_cons]
    by_cases hv : v ∈ groups
    · rw [if_pos hv]
      show (if k = x then some target else _) = _
      by_cases hk : k = x
      · rw [if_pos hk]
        show _ = Option.map _ (if k = x then some v else alookup x rest)
        rw [if_pos hk]
        show some target = some (if v ∈ groups then target else v)
        rw [if_pos hv]
      · rw [if_neg hk]
        show _ = Option.map _ (if k = x then some v else alookup x rest)
        rw [if_neg hk]
        exact ih
    · rw [if_neg hv]
      show (if k = x then some v else _) = _
      by_cases hk : k = x
      · rw [if_pos hk]
        show _ = Option.map _ (if k = x then some v else alookup x rest)
        rw [if_pos hk]
        show some v = some (if v ∈ groups then target else v)
        rw [if_neg hv]
      · rw [if_neg hk]
        show _ = Option.map _ (if k = x then some v else alookup x rest)
        rw [if_neg hk]
        exact ih

/-- Embeds `merge_groups` preserves "x and y are in the same group". -/
theorem merge_groups_pres_eq {s : UFState} {x y v : Nat} (cids : List Nat)
    (hx : alookup x s.ctg = some v) (hy : alookup y s.ctg = some v) :
    ∃ w, alookup x (merge_groups s cids).ctg = some w ∧
      alookup y (merge_groups s cids).ctg = some w := by
  unfold merge_groups
  by_cases hlen : cids.length ≤ 1
  · rw [if_pos hlen]
    exact ⟨v, hx, hy⟩
  · rw [if_neg hlen]
    have hx' : alookup x (getGroups s cids).2.ctg = some v := getGroups_pres cids s hx
    have hy' : alookup y (getGroups s cids).2.ctg = some v := getGroups_pres cids s hy
    show ∃ w,
      alookup x (assignAll ((getGroups s cids).2.ctg.map
        (fun kv => if kv.2 ∈ (getGroups s cids).1
          then (kv.1, listMin (getGroups s cids).1) else kv)) cids
        (listMin (getGroups s cids).1)) = some w ∧
      alookup y (assignAll ((getGroups s cids).2.ctg.map
        (fun kv => if kv.2 ∈ (getGroups s cids).1
          then (kv.1, listMin (getGroups s cids).1) else kv)) cids
        (listMin (getGroups s cids).1)) = some w
    have hxr := alookup_map_remap (getGroups s cids).1
      (listMin (getGroups s cids).1) x (getGroups s cids).2.ctg
    have hyr := alookup_map_remap (getGroups s cids).1
      (listMin (getGroups s cids).1) y (getGroups s cids).2.ctg
    rw [hx'] at hxr
    rw [hy'] at hyr
    by_cases hxc : x ∈ cids
    · by_cases hyc : y ∈ cids
      · exact ⟨listMin (getGroups s cids).1,
          alookup_assignAll_mem cids _ hxc, alookup_assignAll_mem cids _ hyc⟩
      · -- y keeps its remapped value; x's group id v is among the collected ids,
        -- so y's value was remapped to the target as well
        obtain ⟨g, hg, hlook⟩ := getGroups_covers cids s hxc
        rw [hx'] at hlook
        cases hlook
        refine ⟨listMin (getGroups s cids).1, alookup_assignAll_mem cids _ hxc, ?_⟩
        rw [alookup_assignAll_other cids _ hyc, hyr]
        show some (if v ∈ (getGroups s cids).1 then _ else v) = _
        rw [if_pos hg]
    · by_cases hyc : y ∈ cids
      · obtain ⟨g, hg, hlook⟩ := getGroups_covers cids s hyc
        rw [hy'] at hlook
        cases hlook
        refine ⟨listMin (getGroups s cids).1, ?_, alookup_assignAll_mem cids _ hyc⟩
        rw [alookup_assignAll_other cids _ hxc, hxr]
        show some (if v ∈ (getGroups s cids).1 then _ else v) = _
        rw [if_pos hg]
      · refine ⟨if v ∈ (getGroups s cids).1 then listMin (getGroups s cids).1 else v, ?_, ?_⟩
        · rw [alookup_assignAll_other cids _ hxc, hxr]
          rfl
        · rw [alookup_assignAll_other cids _ hyc, hyr]
          rfl

/-- After `merge_groups` on at least two ids, all of them share a group. -/
theorem merge_groups_establish {s : UFState} {x y : Nat} (cids : List Nat)
    (hlen : cids.length > 1) (hx : x ∈ cids) (hy : y ∈ cids) :
    ∃ w, alookup x (merge_groups s cids).ctg = some w ∧
      alookup y (merge_groups s cids).ctg = some w := by
  unfold merge_groups
  rw [if_neg (by omega)]
  show ∃ w,
    alookup x (assignAll ((getGroups s cids).2.ctg.map
      (fun kv => if kv.2 ∈ (getGroups s cids).1
        then (kv.1, listMin (getGroups s cids).1) else kv)) cids
      (listMin (getGroups s cids).1)) = some w ∧
    alookup y (assignAll ((getGroups s cids).2.ctg.map
      (fun kv => if kv.2 ∈ (getGroups s cids).1
        then (kv.1, listMin (getGroups s cids).1) else kv)) cids
      (listMin (getGroups s cids).1)) = some w
  exact ⟨listMin (getGroups s cids).1,
    alookup_assignAll_mem cids _ hx, alookup_assignAll_mem cids _ hy⟩

/-- The merge loops preserve "x and y share a group". -/
theorem runMerges_pres_eq {x y : Nat} :
    ∀ (gs : List (String × List Contact)) (s : UFState) {v : Nat},
      alookup x s.ctg = some v → alookup y s.ctg = some v →
      ∃ w, alookup x (runMerges s gs).ctg = some w ∧
        alookup y (runMerges s gs).ctg = some w := by
  intro gs
  induction gs with
  | nil => intro s v hx hy; exact ⟨v, hx, hy⟩
  | cons kg rest ih =>
    intro s v hx hy
    show ∃ w,
      alookup x (runMerges (if kg.2.length > 1 then merge_groups s (kg.2.map Contact.id)
        else s) rest).ctg = some w ∧
      alookup y (runMerges (if kg.2.length > 1 then merge_groups s (kg.2.map Contact.id)
        else s) rest).ctg = some w
    by_cases hlen : kg.2.length > 1
    · rw [if_pos hlen]
      obtain ⟨w, hx', hy'⟩ := merge_groups_pres_eq (kg.2.map Contact.id) hx hy
      exact ih _ hx' hy'
    · rw [if_neg hlen]
      exact ih _ hx hy

/-- A key group with at least two members puts any two of its members'
ids into one group during the merge loop. -/
theorem runMerges_establish {x y : Nat} {k : String} {g : List Contact} :
    ∀ (gs : List (String × List Contact)) (s : UFState), (k, g) ∈ gs → g.length > 1 →
      x ∈ g.map Contact.id → y ∈ g.map Contact.id →
      ∃ w, alookup x (runMerges s gs).ctg = some w ∧
        alookup y (runMerges s gs).ctg = some w := by
  intro gs
  induction gs with
  | nil => intro s h; cases h
  | cons kg rest ih =>
    intro s hmem hlen hx hy
    show ∃ w,
      alookup x (runMerges (if kg.2.length > 1 then merge_groups s (kg.2.map Contact.id)
        else s) rest).ctg = some w ∧
      alookup y (runMerges (if kg.2.length > 1 then merge_groups s (kg.2.map Contact.id)
        else s) rest).ctg = some w
    rcases List.mem_cons.mp hmem with heq | htail
    · have hkg2 : kg.2 = g := by rw [← heq]
      rw [hkg2, if_pos hlen]
      obtain ⟨w, hx', hy'⟩ := merge_groups_establish (s := s) (g.map Contact.id)
        (by rw [List.length_map]; exact hlen) hx hy
      exact runMerges_pres_eq rest _ hx' hy'
    · by_cases hl : kg.2.length > 1
      · rw [if_pos hl]
        exact ih _ htail hlen hx hy
      · rw [if_neg hl]
        exact ih _ htail hlen hx hy

theorem alookup_upsert_none {κ β : Type} [DecidableEq κ] {k : κ} (x : β) :
    ∀ {m : List (κ × List β)}, alookup k m = none → alookup k (upsert m k x) = some [x] := by
  intro m
  induction m with
  | nil =>
    intro _
    show (if k = k then some [x] else none) = some [x]
    rw [if_pos rfl]
  | cons a rest ih =>
    obtain ⟨k', g⟩ := a
    intro h
    rw [show alookup k ((k', g) :: rest) = if k' = k then some g else alookup k rest
      from rfl] at h
    by_cases hk : k' = k
    · rw [if_pos hk] at h
      cases h
    · rw [if_neg hk] at h
      show alookup k (if k' = k then (k', g ++ [x]) :: rest else (k', g) :: upsert rest k x) =
        some [x]
      rw [if_neg hk]
      show (if k' = k then some g else alookup k (upsert rest k x)) = some [x]
      rw [if_neg hk]
      exact ih h

theorem alookup_upsert_some {κ β : Type} [DecidableEq κ] {k : κ} (x : β) {g₀ : List β} :
    ∀ {m : List (κ × List β)}, alookup k m = some g₀ →
      alookup k (upsert m k x) = some (g₀ ++ [x]) := by
  intro m
  induction m with
  | nil => intro h; cases h
  | cons a rest ih =>
    obtain ⟨k', g⟩ := a
    intro h
    rw [show alookup k ((k', g) :: rest) = if k' = k then some g else alookup k rest
      from rfl] at h
    by_cases hk : k' = k
    · rw [if_pos hk] at h
      have hg : g = g₀ := Option.some.inj h
      show alookup k (if k' = k then (k', g ++ [x]) :: rest else (k', g) :: upsert rest k x) = _
      rw [if_pos hk]
      show (if k' = k then some (g ++ [x]) else alookup k rest) = _
      rw [if_pos hk, hg]
    · rw [if_neg hk] at h
      show alookup k (if k' = k then (k', g ++ [x]) :: rest else (k', g) :: upsert rest k x) = _
      rw [if_neg hk]
      show (if k' = k then some g else alookup k (upsert rest k x)) = _
      rw [if_neg hk]
      exact ih h

theorem alookup_upsert_other {κ β : Type} [DecidableEq κ] {k k' : κ} (x : β)
    (hne : k' ≠ k) :
    ∀ m : List (κ × List β), alookup k' (upsert m k x) = alookup k' m := by
  intro m
  induction m with
  | nil =>
    show (if k = k' then some [x] else none) = none
    rw [if_neg (fun h => hne h.symm)]
  | cons a rest ih =>
    obtain ⟨k'', g⟩ := a
    show alookup k' (if k'' = k then (k'', g ++ [x]) :: rest else (k'', g) :: upsert rest k x) = _
    by_cases hk : k'' = k
    · rw [if_pos hk]
      have hne2 : ¬ k'' = k' := fun h => hne (by rw [← h, hk])
      show (if k'' = k' then some (g ++ [x]) else alookup k' rest) = _
      rw [if_neg hne2]
      show _ = if k'' = k' then some g else alookup k' rest
      rw [if_neg hne2]
    · rw [if_neg hk]
      show (if k'' = k' then some g else alookup k' (upsert rest k x)) = _
      by_cases hk2 : k'' = k'
      · rw [if_pos hk2]
        show _ = if k'' = k' then some g else alookup k' rest
        rw [if_pos hk2]
      · rw [if_neg hk2]
        show _ = if k'' = k' then some g else alookup k' rest
        rw [if_neg hk2]
        exact ih

/-- Memberships recorded in a key index survive the rest of the fold. -/
theorem keyIndex_pres_mem (key : Contact → String) (valid : Contact → Bool) :
    ∀ (cs : List Contact) (m : List (String × List Contact)) {k : String}
      {c : Contact} {g : List Contact},
      alookup k m = some g → c ∈ g →
      ∃ g', alookup k (cs.foldl (fun m c => if valid c then upsert m (key c) c else m) m) =
        some g' ∧ c ∈ g' := by
  intro cs
  induction cs with
  | nil => intro m k c g h hc; exact ⟨g, h, hc⟩
  | cons d ds ih =>
    intro m k c g h hc
    rw [List.foldl_cons]
    by_cases hv : valid d
    · rw [if_pos hv]
      by_cases hk : key d = k
      · subst hk
        exact ih _ (alookup_upsert_some d h) (List.mem_append_left _ hc)
      · exact ih _ (by rw [alookup_upsert_other d (fun h' => hk h'.symm)]; exact h) hc
    · rw [if_neg hv]
      exact ih _ h hc

/-- Every contact with a valid key lands in the group of its key. -/
theorem keyIndex_mem (key : Contact → String) (valid : Contact → Bool) :
    ∀ (cs : List Contact) (m : List (String × List Contact)) {a : Contact},
      a ∈ cs → valid a = true →
      ∃ g, alookup (key a)
        (cs.foldl (fun m c => if valid c then upsert m (key c) c else m) m) = some g ∧
        a ∈ g := by
  intro cs
  induction cs with
  | nil => intro m a h; cases h
  | cons d ds ih =>
    intro m a hmem hva
    rw [List.foldl_cons]
    rcases List.mem_cons.mp hmem with rfl | htail
    · rw [if_pos hva]
      cases hm : alookup (key a) m with
      | none =>
        exact keyIndex_pres_mem key valid ds _ (alookup_upsert_none a hm)
          (List.mem_singleton.mpr rfl)
      | some g₀ =>
        exact keyIndex_pres_mem key valid ds _ (alookup_upsert_some a hm)
          (List.mem_append_right _ (List.mem_singleton.mpr rfl))
    · by_cases hv : valid d
      · rw [if_pos hv]
        exact ih _ htail hva
      · rw [if_neg hv]
        exact ih _ htail hva

/-- Memberships in the final-group build survive the rest of the fold. -/
theorem groupsOf_pres_mem (dict : List (Nat × Contact)) :
    ∀ (ctg : List (Nat × Nat)) (m : List (Nat × List Contact)) {k : Nat}
      {c : Contact} {g : List Contact},
      alookup k m = some g → c ∈ g →
      ∃ g', alookup k (ctg.foldl
        (fun fg kv => upsert fg kv.2 ((alookup kv.1 dict).getD defaultContact)) m) =
        some g' ∧ c ∈ g' := by
  intro ctg
  induction ctg with
  | nil => intro m k c g h hc; exact ⟨g, h, hc⟩
  | cons kv rest ih =>
    intro m k c g h hc
    rw [List.foldl_cons]
    by_cases hk : kv.2 = k
    · subst hk
      exact ih _ (alookup_upsert_some _ h) (List.mem_append_left _ hc)
    · exact ih _ (by rw [alookup_upsert_other _ (fun h' => hk h'.symm)]; exact h) hc

/-- Every `contact_to_group` entry contributes its contact to its group
id's member list. -/
theorem groupsOf_entry_mem (dict : List (Nat × Contact)) :
    ∀ (ctg : List (Nat × Nat)) (m : List (Nat × List Contact)) {cid gid : Nat},
      (cid, gid) ∈ ctg →
      ∃ grp, alookup gid (ctg.foldl
        (fun fg kv => upsert fg kv.2 ((alookup kv.1 dict).getD defaultContact)) m) =
        some grp ∧ ((alookup cid dict).getD defaultContact) ∈ grp := by
  intro ctg
  induction ctg with
  | nil => intro m cid gid h; cases h
  | cons kv rest ih =>
    intro m cid gid hmem
    rw [List.foldl_cons]
    rcases List.mem_cons.mp hmem with heq | htail
    · rw [← heq]
      cases hm : alookup gid m with
      | none =>
        exact groupsOf_pres_mem dict rest _ (alookup_upsert_none _ hm)
          (List.mem_singleton.mpr rfl)
      | some g₀ =>
        exact groupsOf_pres_mem dict rest _ (alookup_upsert_some _ hm)
          (List.mem_append_right _ (List.mem_singleton.mpr rfl))
    · exact ih _ htail

theorem fold_setValC_pres {x : Nat} :
    ∀ (cs : List Contact) (m : List (Nat × Contact)), (∀ c' ∈ cs, c'.id ≠ x) →
      alookup x (cs.foldl (fun m c => setVal m c.id c) m) = alookup x m := by
  intro cs
  induction cs with
  | nil => intro m _; rfl
  | cons c t ih =>
    intro m hne
    rw [List.foldl_cons]
    rw [ih _ (fun c' hc' => hne c' (List.mem_cons_of_mem c hc'))]
    exact alookup_setVal_other (fun h => hne c (List.mem_cons_self c t) h.symm) m

/-- With globally distinct ids, `contacts_by_id` maps each contact's id
back to that contact. -/
theorem contacts_by_id_lookup :
    ∀ (cs : List Contact) (m : List (Nat × Contact)) {a : Contact},
      (cs.map Contact.id).Nodup → a ∈ cs →
      alookup a.id (cs.foldl (fun m c => setVal m c.id c) m) = some a := by
  intro cs
  induction cs with
  | nil => intro m a _ h; cases h
  | cons c t ih =>
    intro m a hnodup hmem
    rw [List.map_cons, List.nodup_cons] at hnodup
    obtain ⟨hcnot, hnd⟩ := hnodup
    rw [List.foldl_cons]
    rcases List.mem_cons.mp hmem with rfl | htail
    · rw [fold_setValC_pres t _ (fun c' hc' h => hcnot (by
        rw [← h]; exact List.mem_map_of_mem Contact.id hc'))]
      exact alookup_setVal_self m
    · exact ih _ hnd htail

theorem two_mem_length {α : Type} {a b : α} :
    ∀ {l : List α}, a ∈ l → b ∈ l → a ≠ b → 1 < l.length := by
  intro l ha hb hne
  cases l with
  | nil => cases ha
  | cons x t =>
    have ht : t ≠ [] := by
      rcases List.mem_cons.mp ha with rfl | ha'
      · rcases List.mem_cons.mp hb with rfl | hb'
        · exact absurd rfl hne
        · exact List.ne_nil_of_mem hb'
      · exact List.ne_nil_of_mem ha'
    have := List.length_pos.mpr ht
    simp only [List.length_cons]
    omega

/-- A contact whose id maps to group id `w` ends up in `w`'s member list
of the final-group build. -/
theorem groupsOf_lookup_mem (contacts : List Contact)
    (hnodup : (contacts.map Contact.id).Nodup) {x : Contact} (hx : x ∈ contacts)
    {w : Nat} (ctg : List (Nat × Nat)) (hw : alookup x.id ctg = some w) :
    ∃ grp, alookup w (groupsOf (contacts_by_id contacts) ctg) = some grp ∧ x ∈ grp := by
  have hentry : (x.id, w) ∈ ctg := alookup_mem hw
  obtain ⟨grp, hg, hm⟩ := groupsOf_entry_mem (contacts_by_id contacts) ctg [] hentry
  refine ⟨grp, hg, ?_⟩
  have hdict : alookup x.id (contacts_by_id contacts) = some x :=
    contacts_by_id_lookup contacts [] hnodup hx
  rw [hdict] at hm
  exact hm

/-- Assembling a returned duplicate group from the final state. -/
theorem fd_mem_of (contacts : List Contact) {w : Nat} {grp : List Contact}
    (hg : alookup w (groupsOf (contacts_by_id contacts)
      (runMerges (runMerges ⟨[], 0⟩ (by_name contacts)) (by_url contacts)).ctg) =
      some grp)
    (hlen : 1 < grp.length) :
    (w, grp) ∈ find_duplicates contacts := by
  show (w, grp) ∈ (groupsOf (contacts_by_id contacts)
    (runMerges (runMerges ⟨[], 0⟩ (by_name contacts)) (by_url contacts)).ctg).filter
      (fun g => g.2.length > 1)
  exact List.mem_filter.mpr ⟨alookup_mem hg, decide_eq_true hlen⟩

/-- Two contacts whose ids share a final group id appear together in a
returned duplicate group. -/
theorem fd_pair_of_lookups (contacts : List Contact)
    (hnodup : (contacts.map Contact.id).Nodup) {a b : Contact}
    (ha : a ∈ contacts) (hb : b ∈ contacts) (hne : a ≠ b) {w : Nat}
    (hwa : alookup a.id
      (runMerges (runMerges ⟨[], 0⟩ (by_name contacts)) (by_url contacts)).ctg = some w)
    (hwb : alookup b.id
      (runMerges (runMerges ⟨[], 0⟩ (by_name contacts)) (by_url contacts)).ctg = some w) :
    ∃ p ∈ find_duplicates contacts, a ∈ p.2 ∧ b ∈ p.2 := by
  obtain ⟨grp, hg, hma⟩ := groupsOf_lookup_mem contacts hnodup ha _ hwa
  obtain ⟨grp', hg', hmb⟩ := groupsOf_lookup_mem contacts hnodup hb _ hwb
  have hgg : grp' = grp := Option.some.inj (hg'.symm.trans hg)
  subst hgg
  have hlen : 1 < grp'.length := two_mem_length hma hmb hne
  exact ⟨(w, grp'), fd_mem_of contacts hg hlen, hma, hmb⟩

/-- C2 (counterexample): two contacts sharing the nonempty normalized
name key "al" are not grouped at all — the code additionally requires
`len(norm) > 2`, so `find_duplicates` returns no group containing them. -/
theorem c2_counterexample :
    nameKey (⟨1, [("firstname", "Al")]⟩ : Contact) =
      nameKey (⟨2, [("firstname", "Al")]⟩ : Contact) ∧
    nameKey (⟨1, [("firstname", "Al")]⟩ : Contact) ≠ "" ∧
    find_duplicates [⟨1, [("firstname", "Al")]⟩, ⟨2, [("firstname", "Al")]⟩] = [] := by
  decide

/-- C2 (amended): two distinct contacts whose normalized name keys are
equal and pass the code's length guard (`len > 2`), or whose normalized
URL keys are equal and nonempty, appear together in one returned
duplicate group. -/
theorem c2_amended_direct_match (contacts : List Contact)
    (hnodup : (contacts.map Contact.id).Nodup) {a b : Contact}
    (ha : a ∈ contacts) (hb : b ∈ contacts) (hne : a.id ≠ b.id)
    (hkey : (nameKey a = nameKey b ∧ nameKeyValid a = true) ∨
            (urlKey a = urlKey b ∧ urlKeyValid a = true)) :
    ∃ p ∈ find_duplicates contacts, a ∈ p.2 ∧ b ∈ p.2 := by
  have hneab : a ≠ b := fun h => hne (by rw [h])
  rcases hkey with ⟨hkeq, hva⟩ | ⟨hkeq, hva⟩
  · have hvb : nameKeyValid b = true := by
      unfold nameKeyValid at hva ⊢
      rw [← hkeq]
      exact hva
    obtain ⟨g, hga, hma⟩ := keyIndex_mem nameKey nameKeyValid contacts [] ha hva
    obtain ⟨g', hgb, hmb⟩ := keyIndex_mem nameKey nameKeyValid contacts [] hb hvb
    rw [← hkeq] at hgb
    have hgg : g' = g := Option.some.inj (hgb.symm.trans hga)
    subst hgg
    have hglen : g'.length > 1 := two_mem_length hma hmb hneab
    have hgmem : (nameKey a, g') ∈ by_name contacts := alookup_mem hga
    obtain ⟨w, hwa, hwb⟩ := runMerges_establish (by_name contacts) ⟨[], 0⟩ hgmem hglen
      (List.mem_map_of_mem Contact.id hma) (List.mem_map_of_mem Contact.id hmb)
    obtain ⟨w', hwa', hwb'⟩ := runMerges_pres_eq (by_url contacts) _ hwa hwb
    exact fd_pair_of_lookups contacts hnodup ha hb hneab hwa' hwb'
  · have hvb : urlKeyValid b = true := by
      unfold urlKeyValid at hva ⊢
      rw [← hkeq]
      exact hva
    obtain ⟨g, hga, hma⟩ := keyIndex_mem urlKey urlKeyValid contacts [] ha hva
    obtain ⟨g', hgb, hmb⟩ := keyIndex_mem urlKey urlKeyValid contacts [] hb hvb
    rw [← hkeq] at hgb
    have hgg : g' = g := Option.some.inj (hgb.symm.trans hga)
    subst hgg
    have hglen : g'.length > 1 := two_mem_length hma hmb hneab
    have hgmem : (urlKey a, g') ∈ by_url contacts := alookup_mem hga
    obtain ⟨w, hwa, hwb⟩ := runMerges_establish (by_url contacts)
      (runMerges ⟨[], 0⟩ (by_name contacts)) hgmem hglen
      (List.mem_map_of_mem Contact.id hma) (List.mem_map_of_mem Contact.id hmb)
    exact fd_pair_of_lookups contacts hnodup ha hb hneab hwa hwb

/-- C1: if A and B share a (valid) normalized name key and B and C share
a (valid) normalized LinkedIn URL key, then A, B and C all appear in one
and the same returned duplicate group, although A and C need share no
key directly. -/
theorem c1_transitive_grouping (contacts : List Contact)
    (hnodup : (contacts.map Contact.id).Nodup) {a b c : Contact}
    (ha : a ∈ contacts) (hb : b ∈ contacts) (hc : c ∈ contacts)
    (hab : a.id ≠ b.id) (hbc : b.id ≠ c.id)
    (hname : nameKey a = nameKey b ∧ nameKeyValid a = true)
    (hurl : urlKey b = urlKey c ∧ urlKeyValid b = true) :
    ∃ p ∈ find_duplicates contacts, a ∈ p.2 ∧ b ∈ p.2 ∧ c ∈ p.2 := by
  have hneab : a ≠ b := fun h => hab (by rw [h])
  obtain ⟨hkeq, hva⟩ := hname
  have hvb : nameKeyValid b = true := by
    unfold nameKeyValid at hva ⊢
    rw [← hkeq]
    exact hva
  obtain ⟨g, hga, hma⟩ := keyIndex_mem nameKey nameKeyValid contacts [] ha hva
  obtain ⟨g', hgb, hmb⟩ := keyIndex_mem nameKey nameKeyValid contacts [] hb hvb
  rw [← hkeq] at hgb
  have hgg : g' = g := Option.some.inj (hgb.symm.trans hga)
  subst hgg
  have hglen : g'.length > 1 := two_mem_length hma hmb hneab
  have hgmem : (nameKey a, g') ∈ by_name contacts := alookup_mem hga
  obtain ⟨w₀, hwa0, hwb0⟩ := runMerges_establish (by_name contacts) ⟨[], 0⟩ hgmem hglen
    (List.mem_map_of_mem Contact.id hma) (List.mem_map_of_mem Contact.id hmb)
  obtain ⟨w, hwa, hwb⟩ := runMerges_pres_eq (by_url contacts) _ hwa0 hwb0
  -- url phase: b and c end up together
  obtain ⟨hueq, hub⟩ := hurl
  have huc : urlKeyValid c = true := by
    unfold urlKeyValid at hub ⊢
    rw [← hueq]
    exact hub
  have hnebc : b ≠ c := fun h => hbc (by rw [h])
  obtain ⟨gu, hgub, hmub⟩ := keyIndex_mem urlKey urlKeyValid contacts [] hb hub
  obtain ⟨gu', hguc, hmuc⟩ := keyIndex_mem urlKey urlKeyValid contacts [] hc huc
  rw [← hueq] at hguc
  have hgg2 : gu' = gu := Option.some.inj (hguc.symm.trans hgub)
  subst hgg2
  have hulen : gu'.length > 1 := two_mem_length hmub hmuc hnebc
  have humem : (urlKey b, gu') ∈ by_url contacts := alookup_mem hgub
  obtain ⟨w₂, hwb2, hwc2⟩ := runMerges_establish (by_url contacts)
    (runMerges ⟨[], 0⟩ (by_name contacts)) humem hulen
    (List.mem_map_of_mem Contact.id hmub) (List.mem_map_of_mem Contact.id hmuc)
  have hww : w₂ = w := Option.some.inj (hwb2.symm.trans hwb)
  subst hww
  -- collect all three into the group of w
  obtain ⟨grp, hg, hmga⟩ := groupsOf_lookup_mem contacts hnodup ha _ hwa
  obtain ⟨grpb, hgb2, hmgb⟩ := groupsOf_lookup_mem contacts hnodup hb _ hwb
  obtain ⟨grpc, hgc2, hmgc⟩ := groupsOf_lookup_mem contacts hnodup hc _ hwc2
  have hb' : grpb = grp := Option.some.inj (hgb2.symm.trans hg)
  have hc' : grpc = grp := Option.some.inj (hgc2.symm.trans hg)
  subst hb'
  subst hc'
  have hlen : 1 < grpc.length := two_mem_length hmga hmgb hneab
  exact ⟨(w₂, grpc), fd_mem_of contacts hg hlen, hmga, hmgb, hmgc⟩

/-- Witness for the amended C2: two distinct contacts named "John Smith"
end up in one returned duplicate group. -/
theorem c2_amended_direct_match_witness :
    ∃ p ∈ find_duplicates
      [(⟨1, [("firstname", "John"), ("lastname", "Smith")]⟩ : Contact),
       ⟨2, [("firstname", "John"), ("lastname", "Smith")]⟩],
      (⟨1, [("firstname", "John"), ("lastname", "Smith")]⟩ : Contact) ∈ p.2 ∧
      (⟨2, [("firstname", "John"), ("lastname", "Smith")]⟩ : Contact) ∈ p.2 :=
  c2_amended_direct_match
    [⟨1, [("firstname", "John"), ("lastname", "Smith")]⟩,
     ⟨2, [("firstname", "John"), ("lastname", "Smith")]⟩]
    (by decide) (by decide) (by decide) (by decide)
    (Or.inl ⟨by decide, by decide⟩)

/-- Witness for C1: A matches B on the name key, B matches C on the URL
key (including case and trailing-slash normalization), and all three are
returned in a single group. -/
theorem c1_transitive_grouping_witness :
    ∃ p ∈ find_duplicates
      [(⟨1, [("firstname", "John"), ("lastname", "Smith")]⟩ : Contact),
       ⟨2, [("firstname", "John"), ("lastname", "Smith"),
            ("hs_linkedin_url", "https://x/in/js")]⟩,
       ⟨3, [("firstname", "Bob"), ("hs_linkedin_url", "HTTPS://x/in/js/")]⟩],
      (⟨1, [("firstname", "John"), ("lastname", "Smith")]⟩ : Contact) ∈ p.2 ∧
      (⟨2, [("firstname", "John"), ("lastname", "Smith"),
            ("hs_linkedin_url", "https://x/in/js")]⟩ : Contact) ∈ p.2 ∧
      (⟨3, [("firstname", "Bob"), ("hs_linkedin_url", "HTTPS://x/in/js/")]⟩ : Contact) ∈ p.2 :=
  c1_transitive_grouping
    [⟨1, [("firstname", "John"), ("lastname", "Smith")]⟩,
     ⟨2, [("firstname", "John"), ("lastname", "Smith"),
          ("hs_linkedin_url", "https://x/in/js")]⟩,
     ⟨3, [("firstname", "Bob"), ("hs_linkedin_url", "HTTPS://x/in/js/")]⟩]
    (by decide) (by decide) (by decide) (by decide) (by decide) (by decide)
    ⟨by decide, by decide⟩ ⟨by decide, by decide⟩

theorem containsSeq_cons_of (tok : List Char) (c : Char) {rest : List Char}
    (h : containsSeq tok rest = true) : containsSeq tok (c :: rest) = true := by
  show (tok.isPrefixOf (c :: rest) || containsSeq tok rest) = true
  rw [h, Bool.or_true]

theorem containsSeq_of_append {tok s : List Char} (hp : tok.isPrefixOf s = true) :
    ∀ pre : List Char, containsSeq tok (pre ++ s) = true := by
  intro pre
  induction pre with
  | nil =>
    rw [List.nil_append]
    cases s with
    | nil =>
      have : tok = [] := by
        cases tok with
        | nil => rfl
        | cons t ts => simp [List.isPrefixOf] at hp
      subst this
      rfl
    | cons c rest =>
      show (tok.isPrefixOf (c :: rest) || containsSeq tok rest) = true
      rw [hp, Bool.true_or]
  | cons p pre' ih =>
    rw [List.cons_append]
    exact containsSeq_cons_of tok p ih

theorem exists_pre_dropWhile (p : Char → Bool) :
    ∀ l : List Char, ∃ pre, l = pre ++ l.dropWhile p := by
  intro l
  induction l with
  | nil => exact ⟨[], rfl⟩
  | cons c rest ih =>
    rw [List.dropWhile_cons]
    by_cases hc : p c
    · rw [if_pos hc]
      obtain ⟨pre, hpre⟩ := ih
      exact ⟨c :: pre, by rw [List.cons_append, ← hpre]⟩
    · rw [if_neg hc]
      exact ⟨[], rfl⟩

theorem findTok_facts {l tok : List Char} (h : findTok l = some tok) :
    tok ∈ SUFFIX_TOKENS ∧ tok.isPrefixOf l = true := by
  refine ⟨List.mem_of_find?_eq_some h, ?_⟩
  have := List.find?_some h
  rw [Bool.and_eq_true] at this
  exact this.1

/-- A string free of suffix tokens is a fixed point of the suffix scan. -/
theorem suffixSub_eq_self_aux :
    ∀ (n : Nat) (l : List Char), l.length ≤ n →
      (∀ tok ∈ SUFFIX_TOKENS, containsSeq tok l = false) → suffixSub l = l := by
  intro n
  induction n with
  | zero =>
    intro l hl _
    rw [List.eq_nil_of_length_eq_zero (Nat.le_zero.mp hl)]
    rfl
  | succ n ih =>
    intro l hl htok
    cases l with
    | nil => rfl
    | cons c rest =>
      rw [suffixSub_cons]
      have hrest : ∀ tok ∈ SUFFIX_TOKENS, containsSeq tok rest = false := by
        intro tok htm
        have := htok tok htm
        show containsSeq tok rest = false
        by_cases hcr : containsSeq tok rest = true
        · rw [containsSeq_cons_of tok c hcr] at this
          cases this
        · exact Bool.eq_false_iff.mpr hcr
      have hlen : rest.length ≤ n := by
        simp only [List.length_cons] at hl
        omega
      cases hc : isSep c with
      | true =>
        rw [if_pos rfl]
        cases hft : findTok ((c :: rest).dropWhile isSep) with
        | some tok =>
          exfalso
          obtain ⟨htm, hpre⟩ := findTok_facts hft
          obtain ⟨pre, hds⟩ := exists_pre_dropWhile isSep (c :: rest)
          have : containsSeq tok (c :: rest) = true := by
            rw [hds]
            exact containsSeq_of_append hpre pre
          rw [htok tok htm] at this
          cases this
        | none =>
          show c :: suffixSub rest = c :: rest
          rw [ih rest hlen hrest]
      | false =>
        rw [if_neg (by simp)]
        rw [ih rest hlen hrest]

theorem suffixSub_eq_self {l : List Char}
    (h : ∀ tok ∈ SUFFIX_TOKENS, containsSeq tok l = false) : suffixSub l = l :=
  suffixSub_eq_self_aux l.length l (Nat.le_refl _) h

/-- A string with no `(` is a fixed point of the parenthetical scan. -/
theorem parenSub_eq_self : ∀ {l : List Char}, '(' ∉ l → parenSub l = l := by
  intro l
  induction l with
  | nil => intro _; rfl
  | cons c rest ih =>
    intro h
    rw [parenSub_cons, if_neg (by
      rintro ⟨rfl, -⟩
      exact h (List.mem_cons_self _ _))]
    rw [ih (fun hm => h (List.mem_cons_of_mem c hm))]

theorem map_toLower_fixed : ∀ {l : List Char}, (∀ c ∈ l, toLowerChar c = c) →
    l.map toLowerChar = l := by
  intro l
  induction l with
  | nil => intro _; rfl
  | cons c rest ih =>
    intro h
    rw [List.map_cons, h c (List.mem_cons_self _ _),
      ih (fun d hd => h d (List.mem_cons_of_mem c hd))]

theorem toLowerChar_idem (c : Char) : toLowerChar (toLowerChar c) = toLowerChar c := by
  unfold toLowerChar
  by_cases h : 65 ≤ c.toNat ∧ c.toNat ≤ 90
  · rw [if_pos h]
    obtain ⟨h1, h2⟩ := h
    generalize c.toNat = m at h1 h2
    interval_cases m <;> decide
  · rw [if_neg h, if_neg h]

theorem mem_stripChars {c : Char} {l : List Char} (h : c ∈ stripChars l) : c ∈ l := by
  unfold stripChars at h
  rw [List.mem_reverse] at h
  have h2 := (List.dropWhile_sublist (l := (l.dropWhile isPySpace).reverse)
    (p := isPySpace)).subset h
  rw [List.mem_reverse] at h2
  exact (List.dropWhile_sublist isPySpace).subset h2

theorem mem_dropAfterRParen {c : Char} : ∀ {l : List Char}, c ∈ dropAfterRParen l → c ∈ l := by
  intro l
  induction l with
  | nil => intro h; cases h
  | cons d rest ih =>
    intro h
    show c ∈ d :: rest
    unfold dropAfterRParen at h
    split at h
    · exact List.mem_cons_of_mem d h
    · exact List.mem_cons_of_mem d (ih h)

theorem mem_parenSub {c : Char} :
    ∀ (n : Nat) (l : List Char), l.length ≤ n → c ∈ parenSub l → c ∈ l := by
  intro n
  induction n with
  | zero =>
    intro l hl h
    rw [List.eq_nil_of_length_eq_zero (Nat.le_zero.mp hl)] at h ⊢
    exact h
  | succ n ih =>
    intro l hl h
    cases l with
    | nil => exact h
    | cons d rest =>
      rw [parenSub_cons] at h
      simp only [List.length_cons] at hl
      split at h
      · have hlen : (dropAfterRParen rest).length ≤ n :=
          Nat.le_trans (dropAfterRParen_length_le rest) (by omega)
        exact List.mem_cons_of_mem d (mem_dropAfterRParen (ih _ hlen h))
      · rcases List.mem_cons.mp h with rfl | h'
        · exact List.mem_cons_self _ _
        · exact List.mem_cons_of_mem d (ih rest (by omega) h')

theorem mem_tmSub {c : Char} {l : List Char} (h : c ∈ tmSub l) : c ∈ l :=
  List.mem_of_mem_filter h

theorem mem_tmSub_not_tm {c : Char} {l : List Char} (h : c ∈ tmSub l) :
    ¬(c = '®' ∨ c = '™') := by
  unfold tmSub at h
  have := List.of_mem_filter h
  exact of_decide_eq_true this

theorem mem_afterMatch {c : Char} {l tok : List Char} (h : c ∈ afterMatch l tok) : c ∈ l := by
  unfold afterMatch at h
  have h1 := (List.dropWhile_sublist (p := isSep)
    (l := (l.dropWhile isSep).drop tok.length)).subset h
  have h2 := List.mem_of_mem_drop h1
  exact (List.dropWhile_sublist isSep).subset h2

theorem mem_suffixSub {c : Char} :
    ∀ (n : Nat) (l : List Char), l.length ≤ n → c ∈ suffixSub l → c ∈ l ∨ c = ' ' := by
  intro n
  induction n with
  | zero =>
    intro l hl h
    rw [List.eq_nil_of_length_eq_zero (Nat.le_zero.mp hl)] at h
    cases h
  | succ n ih =>
    intro l hl h
    cases l with
    | nil => cases h
    | cons d rest =>
      rw [suffixSub_cons] at h
      simp only [List.length_cons] at hl
      cases hd : isSep d with
      | true =>
        rw [if_pos (by rw [hd])] at h
        cases hft : findTok ((d :: rest).dropWhile isSep) with
        | some tok =>
          rw [hft] at h
          rcases List.mem_cons.mp h with rfl | h'
          · exact Or.inr rfl
          · have hlen : (afterMatch (d :: rest) tok).length ≤ n := by
              have := afterMatch_length_le d rest tok hd
              omega
            rcases ih _ hlen h' with hm | hsp
            · exact Or.inl (mem_afterMatch hm)
            · exact Or.inr hsp
        | none =>
          rw [hft] at h
          rcases List.mem_cons.mp h with rfl | h'
          · exact Or.inl (List.mem_cons_self _ _)
          · rcases ih rest (by omega) h' with hm | hsp
            · exact Or.inl (List.mem_cons_of_mem d hm)
            · exact Or.inr hsp
      | false =>
        rw [if_neg (by simp [hd])] at h
        rcases List.mem_cons.mp h with rfl | h'
        · exact Or.inl (List.mem_cons_self _ _)
        · rcases ih rest (by omega) h' with hm | hsp
          · exact Or.inl (List.mem_cons_of_mem d hm)
          · exact Or.inr hsp

/-- Every word produced by `pySplit` is nonempty and whitespace-free. -/
theorem pySplit_words_aux :
    ∀ (n : Nat) (l : List Char), l.length ≤ n →
      ∀ w ∈ pySplit l, w ≠ [] ∧ ∀ c ∈ w, isPySpace c = false := by
  intro n
  induction n with
  | zero =>
    intro l hl w hw
    rw [List.eq_nil_of_length_eq_zero (Nat.le_zero.mp hl)] at hw
    cases hw
  | succ n ih =>
    intro l hl w hw
    cases l with
    | nil => cases hw
    | cons c rest =>
      rw [pySplit_cons] at hw
      simp only [List.length_cons] at hl
      by_cases hc : isPySpace c
      · rw [if_pos hc] at hw
        exact ih rest (by omega) w hw
      · rw [if_neg hc] at hw
        rcases List.mem_cons.mp hw with rfl | hw'
        · constructor
          · intro hnil
            have : c ∈ (c :: rest).takeWhile (fun d => !isPySpace d) := by
              rw [List.takeWhile_cons, if_pos (by simp [hc])]
              exact List.mem_cons_self _ _
            rw [hnil] at this
            cases this
          · intro d hd
            have := List.mem_takeWhile_imp (p := fun d => !isPySpace d) hd
            simpa using this
        · have hlen : ((c :: rest).dropWhile (fun d => !isPySpace d)).length ≤ n := by
            have : ((c :: rest).dropWhile (fun d => !isPySpace d)).length ≤ rest.length := by
              rw [List.dropWhile_cons, if_pos (by simp [hc])]
              exact dropWhile_length_le rest
            omega
          exact ih _ hlen w hw'

theorem pySplit_words {l : List Char} :
    ∀ w ∈ pySplit l, w ≠ [] ∧ ∀ c ∈ w, isPySpace c = false :=
  pySplit_words_aux l.length l (Nat.le_refl _)

/-- Every character of a `pySplit` word comes from the input. -/
theorem mem_pySplit_chars {c : Char} :
    ∀ (n : Nat) (l : List Char), l.length ≤ n →
      ∀ w ∈ pySplit l, c ∈ w → c ∈ l := by
  intro n
  induction n with
  | zero =>
    intro l hl w hw _
    rw [List.eq_nil_of_length_eq_zero (Nat.le_zero.mp hl)] at hw
    cases hw
  | succ n ih =>
    intro l hl w hw hc
    cases l with
    | nil => cases hw
    | cons d rest =>
      rw [pySplit_cons] at hw
      simp only [List.length_cons] at hl
      by_cases hd : isPySpace d
      · rw [if_pos hd] at hw
        exact List.mem_cons_of_mem d (ih rest (by omega) w hw hc)
      · rw [if_neg hd] at hw
        rcases List.mem_cons.mp hw with rfl | hw'
        · exact (List.takeWhile_sublist _).subset hc
        · have hlen : ((d :: rest).dropWhile (fun e => !isPySpace e)).length ≤ n := by
            have : ((d :: rest).dropWhile (fun e => !isPySpace e)).length ≤ rest.length := by
              rw [List.dropWhile_cons, if_pos (by simp [hd])]
              exact dropWhile_length_le rest
            omega
          have := ih _ hlen w hw' hc
          exact (List.dropWhile_sublist _).subset this

/-- Characters of a joined word list are word characters or the space
separator. -/
theorem mem_joinSpace {c : Char} :
    ∀ ws : List (List Char), c ∈ joinSpace ws → (∃ w ∈ ws, c ∈ w) ∨ c = ' ' := by
  intro ws
  induction ws with
  | nil => intro h; cases h
  | cons w ws' ih =>
    intro h
    cases ws' with
    | nil =>
      exact Or.inl ⟨w, List.mem_cons_self _ _, h⟩
    | cons w2 ws'' =>
      rw [show joinSpace (w :: w2 :: ws'') = w ++ ' ' :: joinSpace (w2 :: ws'') from rfl] at h
      rcases List.mem_append.mp h with hw | hrest
      · exact Or.inl ⟨w, List.mem_cons_self _ _, hw⟩
      · rcases List.mem_cons.mp hrest with rfl | hj
        · exact Or.inr rfl
        · rcases ih hj with ⟨w', hw', hc⟩ | hsp
          · exact Or.inl ⟨w', List.mem_cons_of_mem w hw', hc⟩
          · exact Or.inr hsp

theorem joinSpace_ne_nil {w : List Char} {ws : List (List Char)} (hw : w ≠ []) :
    joinSpace (w :: ws) ≠ [] := by
  cases ws with
  | nil => exact hw
  | cons w2 ws' =>
    show w ++ ' ' :: joinSpace (w2 :: ws') ≠ []
    intro h
    have := List.append_eq_nil.mp h
    exact List.cons_ne_nil _ _ this.2

theorem joinSpace_head {ws : List (List Char)}
    (hws : ∀ w ∈ ws, w ≠ [] ∧ ∀ c ∈ w, isPySpace c = false) :
    ∀ c z, joinSpace ws = c :: z → isPySpace c = false := by
  intro c z h
  cases ws with
  | nil => cases h
  | cons w ws' =>
    obtain ⟨hne, hnc⟩ := hws w (List.mem_cons_self _ _)
    obtain ⟨d, w', rfl⟩ := List.exists_cons_of_ne_nil hne
    cases ws' with
    | nil =>
      cases h
      exact hnc c (List.mem_cons_self _ _)
    | cons w2 ws'' =>
      rw [show joinSpace ((d :: w') :: w2 :: ws'') =
        (d :: w') ++ ' ' :: joinSpace (w2 :: ws'') from rfl, List.cons_append] at h
      cases h
      exact hnc c (List.mem_cons_self _ _)

theorem joinSpace_last {ws : List (List Char)}
    (hws : ∀ w ∈ ws, w ≠ [] ∧ ∀ c ∈ w, isPySpace c = false) :
    ∀ c z, (joinSpace ws).reverse = c :: z → isPySpace c = false := by
  induction ws with
  | nil => intro c z h; cases h
  | cons w ws' ih =>
    intro c z h
    obtain ⟨hne, hnc⟩ := hws w (List.mem_cons_self _ _)
    cases ws' with
    | nil =>
      have hc : c ∈ (joinSpace [w]).reverse := by
        rw [h]
        exact List.mem_cons_self _ _
      exact hnc c (List.mem_reverse.mp hc)
    | cons w2 ws'' =>
      rw [show joinSpace (w :: w2 :: ws'') = w ++ ' ' :: joinSpace (w2 :: ws'') from rfl,
        List.reverse_append, List.reverse_cons] at h
      have hjne : joinSpace (w2 :: ws'') ≠ [] :=
        joinSpace_ne_nil (hws w2 (List.mem_cons_of_mem w (List.mem_cons_self _ _))).1
      have hrne : (joinSpace (w2 :: ws'')).reverse ≠ [] := by
        intro hr
        exact hjne (by
          have := congrArg List.reverse hr
          rwa [List.reverse_reverse] at this)
      obtain ⟨d, z', hdz⟩ := List.exists_cons_of_ne_nil hrne
      rw [hdz, List.cons_append, List.cons_append] at h
      cases h
      exact ih (fun w' hw' => hws w' (List.mem_cons_of_mem w hw')) c z' hdz

theorem dropWhile_eq_self_head {p : Char → Bool} {l : List Char}
    (h : ∀ c z, l = c :: z → p c = false) : l.dropWhile p = l := by
  cases l with
  | nil => rfl
  | cons c z =>
    rw [List.dropWhile_cons, if_neg (by rw [h c z rfl]; simp)]

/-- Joined word lists carry no leading or trailing whitespace, so
`strip` leaves them alone. -/
theorem stripChars_joinSpace {ws : List (List Char)}
    (hws : ∀ w ∈ ws, w ≠ [] ∧ ∀ c ∈ w, isPySpace c = false) :
    stripChars (joinSpace ws) = joinSpace ws := by
  unfold stripChars
  rw [dropWhile_eq_self_head (fun c z h => joinSpace_head hws c z h)]
  rw [dropWhile_eq_self_head (fun c z h => joinSpace_last hws c z h)]
  exact List.reverse_reverse _

theorem dropWhile_append_stop {p : Char → Bool} {q : Char} (hq : p q = false) :
    ∀ {l₁ : List Char}, (∀ c ∈ l₁, p c = true) →
      ∀ z : List Char, (l₁ ++ q :: z).dropWhile p = q :: z := by
  intro l₁ h
  induction l₁ with
  | nil =>
    intro z
    rw [List.nil_append, List.dropWhile_cons, if_neg (by rw [hq]; simp)]
  | cons c rest ih =>
    intro z
    rw [List.cons_append, List.dropWhile_cons,
      if_pos (h c (List.mem_cons_self c rest))]
    exact ih (fun d hd => h d (List.mem_cons_of_mem c hd)) z

/-- Splitting a joined word list recovers the words. -/
theorem pySplit_joinSpace :
    ∀ {ws : List (List Char)},
      (∀ w ∈ ws, w ≠ [] ∧ ∀ c ∈ w, isPySpace c = false) →
      pySplit (joinSpace ws) = ws := by
  intro ws
  induction ws with
  | nil => intro _; rfl
  | cons w ws' ih =>
    intro hws
    obtain ⟨hne, hnc⟩ := hws w (List.mem_cons_self _ _)
    obtain ⟨d, w', rfl⟩ := List.exists_cons_of_ne_nil hne
    have hd : isPySpace d = false := hnc d (List.mem_cons_self _ _)
    cases ws' with
    | nil =>
      show pySplit (d :: w') = [d :: w']
      rw [pySplit_cons, if_neg (by simp [hd])]
      rw [takeWhile_eq_self_of (fun c hc => by
        simp only [Bool.not_eq_true']
        exact hnc c hc)]
      rw [List.dropWhile_eq_nil_iff.mpr (fun c hc => by
        simp only [Bool.not_eq_true']
        exact hnc c hc)]
      rfl
    | cons w2 ws'' =>
      rw [show joinSpace ((d :: w') :: w2 :: ws'') =
        (d :: w') ++ ' ' :: joinSpace (w2 :: ws'') from rfl, List.cons_append]
      rw [pySplit_cons, if_neg (by simp [hd])]
      rw [show d :: (w' ++ ' ' :: joinSpace (w2 :: ws'')) =
        (d :: w') ++ ' ' :: joinSpace (w2 :: ws'') from rfl]
      rw [takeWhile_append_stop (p := fun e => !isPySpace e) (by decide)
        (fun c hc => by simp only [Bool.not_eq_true']; exact hnc c hc) _]
      rw [dropWhile_append_stop (p := fun e => !isPySpace e) (by decide)
        (fun c hc => by simp only [Bool.not_eq_true']; exact hnc c hc) _]
      rw [show pySplit (' ' :: joinSpace (w2 :: ws'')) = pySplit (joinSpace (w2 :: ws''))
        from by rw [pySplit_cons, if_pos (by decide)]]
      rw [ih (fun w'' hw'' => hws w'' (List.mem_cons_of_mem _ hw''))]

/-- The collapsed output of the name pipeline is a fixed point of the
pipeline when it is token-free and parenthesis-free. -/
theorem normalize_fixpoint_aux (X : List Char)
    (hXlower : ∀ c ∈ X, toLowerChar c = c)
    (hXtm : ∀ c ∈ X, ¬(c = '®' ∨ c = '™'))
    (h1 : ∀ tok ∈ SUFFIX_TOKENS,
      containsSeq tok (joinSpace (pySplit X)) = false)
    (h2 : '(' ∉ joinSpace (pySplit X)) :
    stripChars (joinSpace (pySplit (suffixSub (tmSub (parenSub (stripChars
      ((joinSpace (pySplit X)).map toLowerChar))))))) = joinSpace (pySplit X) := by
  have hws : ∀ w ∈ pySplit X, w ≠ [] ∧ ∀ c ∈ w, isPySpace c = false := pySplit_words
  have hJlower : ∀ c ∈ joinSpace (pySplit X), toLowerChar c = c := by
    intro c hc
    rcases mem_joinSpace _ hc with ⟨w, hw, hcw⟩ | rfl
    · exact hXlower c (mem_pySplit_chars X.length X (Nat.le_refl _) w hw hcw)
    · decide
  have hmap : (joinSpace (pySplit X)).map toLowerChar = joinSpace (pySplit X) :=
    map_toLower_fixed hJlower
  rw [hmap]
  have hstrip : stripChars (joinSpace (pySplit X)) = joinSpace (pySplit X) :=
    stripChars_joinSpace hws
  rw [hstrip]
  rw [parenSub_eq_self h2]
  have hJtm : tmSub (joinSpace (pySplit X)) = joinSpace (pySplit X) := by
    unfold tmSub
    refine List.filter_eq_self.mpr (fun c hc => decide_eq_true ?_)
    rcases mem_joinSpace _ hc with ⟨w, hw, hcw⟩ | rfl
    · exact hXtm c (mem_pySplit_chars X.length X (Nat.le_refl _) w hw hcw)
    · decide
  rw [hJtm]
  rw [suffixSub_eq_self h1]
  rw [pySplit_joinSpace hws]
  exact hstrip

/-- C6 (amended): `normalize_name` is idempotent on every input whose
normalized form contains no professional-suffix token as a substring and
no parenthesis character; repeated suffix tokens break idempotence in
general (the trailing `[,\s]*` of a match swallows the separator the
next token would need). -/
theorem c6_amended_idempotence (s : String)
    (h1 : tokenFree (normalize_name s).data = true)
    (h2 : '(' ∉ (normalize_name s).data) :
    normalize_name (normalize_name s) = normalize_name s := by
  have hwords : ∀ w ∈ pySplit (suffixSub (tmSub (parenSub (stripChars
      (s.data.map toLowerChar))))), w ≠ [] ∧ ∀ c ∈ w, isPySpace c = false := pySplit_words
  have hdata : (normalize_name s).data =
      joinSpace (pySplit (suffixSub (tmSub (parenSub (stripChars
        (s.data.map toLowerChar)))))) := stripChars_joinSpace hwords
  have hXlower : ∀ c ∈ suffixSub (tmSub (parenSub (stripChars (s.data.map toLowerChar)))),
      toLowerChar c = c := by
    intro c hc
    rcases mem_suffixSub (tmSub (parenSub (stripChars (s.data.map toLowerChar)))).length _
      (Nat.le_refl _) hc with hm | rfl
    · have h3 := mem_tmSub hm
      have h4 := mem_parenSub (stripChars (s.data.map toLowerChar)).length _
        (Nat.le_refl _) h3
      have h5 := mem_stripChars h4
      obtain ⟨d, _, rfl⟩ := List.mem_map.mp h5
      exact toLowerChar_idem d
    · decide
  have hXtm : ∀ c ∈ suffixSub (tmSub (parenSub (stripChars (s.data.map toLowerChar)))),
      ¬(c = '®' ∨ c = '™') := by
    intro c hc
    rcases mem_suffixSub (tmSub (parenSub (stripChars (s.data.map toLowerChar)))).length _
      (Nat.le_refl _) hc with hm | rfl
    · exact mem_tmSub_not_tm hm
    · decide
  rw [hdata] at h1 h2
  have h1' : ∀ tok ∈ SUFFIX_TOKENS,
      containsSeq tok (joinSpace (pySplit (suffixSub (tmSub (parenSub (stripChars
        (s.data.map toLowerChar))))))) = false := by
    unfold tokenFree at h1
    rw [List.all_eq_true] at h1
    intro tok htk
    have := h1 tok htk
    simpa using this
  have key := normalize_fixpoint_aux _ hXlower hXtm h1' h2
  show String.mk (stripChars (joinSpace (pySplit (suffixSub (tmSub (parenSub (stripChars
    ((normalize_name s).data.map toLowerChar)))))))) = normalize_name s
  rw [hdata, key]
  exact congrArg String.mk hdata.symm

/-- C6 (counterexample): `normalize_name` is not idempotent: a repeated
suffix token survives one pass (the match swallows the following
separator) and is stripped by the next. -/
theorem c6_counterexample :
    normalize_name (normalize_name "a mba mba") ≠ normalize_name "a mba mba" ∧
    normalize_name "a mba mba" = "a mba" ∧
    normalize_name (normalize_name "a mba mba") = "a" := by decide

/-- Witness for the amended C6 at a concrete name whose normal form is
token- and parenthesis-free. -/
theorem c6_amended_idempotence_witness :
    tokenFree (normalize_name "John A. Smith, MBA").data = true ∧
    '(' ∉ (normalize_name "John A. Smith, MBA").data ∧
    normalize_name (normalize_name "John A. Smith, MBA") =
      normalize_name "John A. Smith, MBA" :=
  ⟨by decide, by decide, c6_amended_idempotence "John A. Smith, MBA" (by decide) (by decide)⟩
